import Mathlib

/-!
Verification development for the `smile` equation parser of go-xmile.

The Go source (package `smile`: the lexer, the parser and `ast.go`) is
shallowly embedded below.  Strings are modelled as `List Char` and source
positions count runes rather than bytes; the two coincide on ASCII input,
which covers every concrete equation considered here.  `go/token` positions
are `base + offset` with `base = 1` for the single file a parse creates.
Error messages are modelled as an inductive type with one constructor per
`errorf`/`log.Printf` call site, carrying the formatted arguments; the exact
rendered strings are never load-bearing.
-/

namespace GoXmile

/-- Item types of lexer tokens, from the `itemType` constants. -/
inductive ItemType where
  | itemEOF
  | itemIdentifier
  | itemNumber
  | itemSemi
  | itemOperator
  | itemLiteral
  | itemLBracket
  | itemRBracket
  | itemLParen
  | itemRParen
  | itemLSquare
  | itemRSquare
deriving DecidableEq, Repr

/-- Token of the lexer: kind, `go/token` position, raw text (`Token` struct). -/
structure Token where
  kind : ItemType
  pos : Nat
  val : List Char
deriving DecidableEq, Repr

/-- Relevant `go/token.Token` values: the operators `opToken` can produce,
`FLOAT` for numeric literals, and `ILLEGAL` (the zero value) marking the
branch where the Go `opToken` panics. -/
inductive GoTok where
  | ILLEGAL
  | XOR
  | ADD
  | SUB
  | MUL
  | QUO
  | FLOAT
deriving DecidableEq, Repr

/-- Error-message constructors, one per `errorf` (parser) or
`l.errorf`/`log.Printf` (lexer) call site, with the formatted arguments. -/
inductive ErrMsg where
  | unrecognizedChar (r : Char)
  | unexpectedEOF
  | expectedRParen
  | unexpectedToken
  | callExpectedExprArg (la : Option Token)
  | callExpectedCommaOrRParen (la : Option Token)
  | expectedEndOfEquation (la : Token)
deriving DecidableEq, Repr

/-- Diagnostic recorded by the parser's `errorf`: position and message.
Position `0` models Go's zero `token.Position` (used when the lookahead
token is nil). -/
structure Diag where
  pos : Nat
  msg : ErrMsg
deriving DecidableEq, Repr

/-- Base of the single `token.File` a parse creates: `fset.Base() = 1`. -/
def fileBase : Nat := 1

/-- Rune signalling end of input (`const eof = 0`). -/
def eofRune : Char := Char.ofNat 0

/-- Go slice `s[a:b]` on the rune level. -/
def extractList (s : List Char) (a b : Nat) : List Char :=
  (s.take b).drop a

/-- Restriction of `unicode.IsSpace` to Latin-1, the range the equations
considered here use. -/
def isSpace (r : Char) : Bool :=
  r = ' ' || r = '\t' || r = '\n' || r = Char.ofNat 11 || r = Char.ofNat 12 ||
  r = Char.ofNat 13 || r = Char.ofNat 133 || r = Char.ofNat 160

/-- Digit set used by the number scanner. -/
def digitRunes : List Char := "0123456789".toList

/-- Restriction of `unicode.IsDigit` to ASCII decimal digits. -/
def isDigit (r : Char) : Bool :=
  digitRunes.contains r

/-- Predicate `isLiteralStart` from the lexer. -/
def isLiteralStart (r : Char) : Bool :=
  r = '"'

/-- Predicate `isOperator` from the lexer: membership in the punctuation
set; note that it does not contain the caret. -/
def isOperator (r : Char) : Bool :=
  (",+-*/|&=()[]:><".toList).contains r

/-- Predicate `isIdentifierStart` from the lexer. -/
def isIdentifierStart (r : Char) : Bool :=
  !(isDigit r || isSpace r || isOperator r)

/-- Predicate `isAlphaNumeric` from the lexer. -/
def isAlphaNumeric (r : Char) : Bool :=
  !(isSpace r || isOperator r || r = ';' || r = eofRune)

/-- Lexer state: the scanned string, current and token-start positions, the
width of the last consumed rune, the semicolon-insertion flag, the tokens
sent to the `items` channel so far, and the messages written with
`log.Printf` by `errorf`. -/
structure LexState where
  s : List Char
  pos : Nat
  start : Nat
  width : Nat
  semi : Bool
  toks : List Token
  logs : List ErrMsg
deriving DecidableEq, Repr

/-- Method `next`: consume one rune, or return `eof` without moving (and
without touching `width`) at the end of input. -/
def lnext (l : LexState) : Char × LexState :=
  if h : l.pos < l.s.length then
    (l.s.get ⟨l.pos, h⟩, { l with pos := l.pos + 1, width := 1 })
  else
    (eofRune, l)

/-- Method `backup`: step back by the width of the last consumed rune. -/
def lbackup (l : LexState) : LexState :=
  { l with pos := l.pos - l.width }

/-- Method `peek`: `next` followed by `backup` (so at end of input the
stale `width` moves `pos` backwards, exactly as in the Go code). -/
def lpeek (l : LexState) : Char × LexState :=
  let p := lnext l
  (p.1, lbackup p.2)

/-- Method `ignore`: drop the pending text. -/
def lignore (l : LexState) : LexState :=
  { l with start := l.pos }

/-- Method `emit`: send a token whose position is taken at `l.pos`, after
the token's runes were consumed, then `ignore` and update the
semicolon-insertion flag. -/
def lemit (l : LexState) (ty : ItemType) : LexState :=
  let t : Token := { kind := ty, pos := fileBase + l.pos, val := extractList l.s l.start l.pos }
  { l with toks := l.toks ++ [t], start := l.pos,
           semi := ty = .itemRBracket || ty = .itemRParen || ty = .itemRSquare ||
                   ty = .itemIdentifier || ty = .itemNumber || ty = .itemLiteral }

/-- Method `insertEmit`: send a synthesized token at the current position,
without `ignore` and without touching the semicolon flag. -/
def linsertEmit (l : LexState) (ty : ItemType) (val : List Char) : LexState :=
  { l with toks := l.toks ++ [{ kind := ty, pos := fileBase + l.pos, val := val }] }

/-- Method `errorf`: write the message with `log.Printf`, emit an
`itemEOF` token; the caller then halts scanning (the Go state function
returns nil). -/
def lerrorf (l : LexState) (msg : ErrMsg) : LexState :=
  lemit { l with logs := l.logs ++ [msg] } .itemEOF

/-- Loop of `acceptRun`: consume runes while they are in `valid`, then
`backup` once (with the stale-width behaviour at end of input).  The
auxiliary fuel is the number of runes left, so exhausting it and reaching
the end of input coincide and the recursion is structural. -/
def lacceptRunAux (valid : List Char) : Nat → LexState → LexState
  | 0, l => { l with pos := l.pos - l.width }
  | rem + 1, l =>
    if h : l.pos < l.s.length then
      if valid.contains (l.s.get ⟨l.pos, h⟩) then
        lacceptRunAux valid rem { l with pos := l.pos + 1, width := 1 }
      else
        { l with width := 1 }
    else
      { l with pos := l.pos - l.width }

/-- Method `acceptRun`. -/
def lacceptRun (valid : List Char) (l : LexState) : LexState :=
  lacceptRunAux valid (l.s.length - l.pos) l

/-- Method `accept`: consume one rune if it is in `valid`. -/
def laccept (valid : List Char) (l : LexState) : Bool × LexState :=
  let p := lnext l
  if valid.contains p.1 then (true, p.2) else (false, lbackup p.2)

/-- State `number`: digits, optional point, digits, optional exponent. -/
def lexNumber (l : LexState) : LexState :=
  let l := lacceptRun digitRunes l
  let l := (laccept ['.'] l).2
  let l := lacceptRun digitRunes l
  let p := laccept ['e', 'E'] l
  let l :=
    if p.1 then
      lacceptRun digitRunes (laccept ['+', '-'] p.2).2
    else
      p.2
  lemit l .itemNumber

/-- Loop inside state `literal`: consume runes until the delimiter or
`eof`, then `backup`. -/
def llitLoopAux (delim : Char) : Nat → LexState → LexState
  | 0, l => { l with pos := l.pos - l.width }
  | rem + 1, l =>
    if h : l.pos < l.s.length then
      let c := l.s.get ⟨l.pos, h⟩
      if c = delim || c = eofRune then
        { l with width := 1 }
      else
        llitLoopAux delim rem { l with pos := l.pos + 1, width := 1 }
    else
      { l with pos := l.pos - l.width }

/-- Scan loop of `literal`, fuelled by the number of runes left. -/
def llitLoop (delim : Char) (l : LexState) : LexState :=
  llitLoopAux delim (l.s.length - l.pos) l

/-- Tail of state `literal`, after the content loop: check the closing
delimiter against the peeked rune; a missing delimiter is a lexical error
and the returned flag reports the halt. -/
def lexLiteralEnd (delim : Char) (q : Char × LexState) : LexState × Bool :=
  if q.1 ≠ delim then
    (lerrorf q.2 .unexpectedEOF, true)
  else
    let l := lemit q.2 .itemLiteral
    (lignore (lnext l).2, false)

/-- State `literal`: scan a delimited string literal. -/
def lexLiteral (l : LexState) : LexState × Bool :=
  let p := lnext l
  let delim := p.1
  let l := lignore p.2
  let l := llitLoop delim l
  lexLiteralEnd delim (lpeek l)

/-- Loop of state `identifier`: consume runes while `isAlphaNumeric`,
then `backup`. -/
def lidentLoopAux : Nat → LexState → LexState
  | 0, l => { l with pos := l.pos - l.width }
  | rem + 1, l =>
    if h : l.pos < l.s.length then
      if isAlphaNumeric (l.s.get ⟨l.pos, h⟩) then
        lidentLoopAux rem { l with pos := l.pos + 1, width := 1 }
      else
        { l with width := 1 }
    else
      { l with pos := l.pos - l.width }

/-- Scan loop of `identifier`, fuelled by the number of runes left. -/
def lidentLoop (l : LexState) : LexState :=
  lidentLoopAux (l.s.length - l.pos) l

/-- State `identifier`. -/
def lexIdentifier (l : LexState) : LexState :=
  lemit (lidentLoop l) .itemIdentifier

/-- State `operator`: classify the punctuation rune, emit, and synthesize
an implicit multiplication token between a close-paren and an immediately
following open-paren. -/
def lexOperator (l : LexState) : LexState :=
  let p := lnext l
  let r := p.1
  let ty : ItemType :=
    if r = Char.ofNat 123 then .itemLBracket
    else if r = Char.ofNat 125 then .itemRBracket
    else if r = '(' then .itemLParen
    else if r = ')' then .itemRParen
    else if r = '[' then .itemLSquare
    else if r = ']' then .itemRSquare
    else .itemOperator
  let l := lemit p.2 ty
  if r = ')' then
    let q := lpeek l
    if q.1 = '(' then linsertEmit q.2 .itemOperator ['*'] else q.2
  else
    l

/-- Loop of state `comment`: skip runes until a newline or `eof`, then
`backup`. -/
def lcommentLoopAux : Nat → LexState → LexState
  | 0, l => { l with pos := l.pos - l.width }
  | rem + 1, l =>
    if h : l.pos < l.s.length then
      let c := l.s.get ⟨l.pos, h⟩
      if c = '\n' || c = eofRune then
        { l with width := 1 }
      else
        lcommentLoopAux rem { l with pos := l.pos + 1, width := 1 }
    else
      { l with pos := l.pos - l.width }

/-- Scan loop of `comment`, fuelled by the number of runes left. -/
def lcommentLoop (l : LexState) : LexState :=
  lcommentLoopAux (l.s.length - l.pos) l

/-- State `comment`: skip to end of line and discard. -/
def lexComment (l : LexState) : LexState :=
  lignore (lcommentLoop l)

/-- Driver of the `statement` dispatch state, one fuel unit per
iteration.  `none` models a run that exceeds the fuel, which a
semicolon-terminated input never does; the Go lexer would keep emitting
`itemEOF` tokens if pulled after the first one, but the parser never
pulls past it, so the run stops at the first `itemEOF`. -/
def lexRun : Nat → LexState → Option LexState
  | 0, _ => none
  | fuel + 1, l =>
    let p := lnext l
    let r := p.1
    let l := p.2
    if r = eofRune then
      let l := if l.semi then lemit l .itemSemi else l
      some (lemit l .itemEOF)
    else if r = '/' then
      let q := lpeek l
      if q.1 = '/' then
        lexRun fuel (lexComment (lnext q.2).2)
      else
        lexRun fuel (lemit q.2 .itemOperator)
    else if r = ';' then
      lexRun fuel (lemit l .itemSemi)
    else if isSpace r then
      let l := if r = '\n' && l.semi then lemit l .itemSemi else l
      lexRun fuel (lignore l)
    else if isDigit r || r = '.' then
      lexRun fuel (lexNumber (lbackup l))
    else if isLiteralStart r then
      let q := lexLiteral (lbackup l)
      if q.2 then some q.1 else lexRun fuel q.1
    else if isIdentifierStart r then
      lexRun fuel (lexIdentifier (lbackup l))
    else if isOperator r then
      lexRun fuel (lexOperator (lbackup l))
    else
      some (lerrorf l (.unrecognizedChar r))

/-- Initial lexer state for an input (`newLexer`). -/
def initLexer (s : List Char) : LexState :=
  { s := s, pos := 0, start := 0, width := 0, semi := false, toks := [], logs := [] }

/-- Run the lexer to completion on an input string. -/
def lexAll (s : List Char) : Option LexState :=
  lexRun (s.length + 2) (initLexer s)

/-- Normalization at the top of `Parse`: append a semicolon unless the
last rune of the equation already is one (`utf8.DecodeLastRuneInString`
yields `RuneError` on the empty string, which also triggers the append). -/
def normalizeEqn (eqn : List Char) : List Char :=
  if eqn.getLast? ≠ some ';' then eqn ++ [';'] else eqn

/-- Expression nodes of `ast.go`.  Go interface values may be nil; the
embedding keeps every field total, and the parser invariants proved below
show the placeholder defaults it uses for the corresponding unreachable
branches are never exercised. -/
inductive Expr where
  | BadExpr (From To : Nat)
  | Ident (NamePos : Nat) (Name : List Char)
  | BasicLit (ValuePos : Nat) (Kind : GoTok) (Value : List Char)
  | ParenExpr (Lparen : Nat) (X : Expr) (Rparen : Nat)
  | IndexExpr (X : Expr) (Lbrack : Nat) (Index : Expr) (Rbrack : Nat)
  | CallExpr (Fun : Expr) (Lparen : Nat) (Args : List Expr) (Rparen : Nat)
  | UnaryExpr (OpPos : Nat) (Op : GoTok) (X : Expr)
  | BinaryExpr (X : Expr) (OpPos : Nat) (Op : GoTok) (Y : Expr)
deriving Repr

/-- Method `Pos()` of each node, from `ast.go`. -/
def Expr.Pos : Expr → Nat
  | .BadExpr f _ => f
  | .Ident p _ => p
  | .BasicLit p _ _ => p
  | .ParenExpr lp _ _ => lp
  | .IndexExpr x _ _ _ => x.Pos
  | .CallExpr f _ _ _ => f.Pos
  | .UnaryExpr p _ _ => p
  | .BinaryExpr x _ _ _ => x.Pos

/-- Method `End()` of each node, from `ast.go`. -/
def Expr.End : Expr → Nat
  | .BadExpr _ t => t
  | .Ident p n => p + n.length
  | .BasicLit p _ v => p + v.length
  | .ParenExpr _ _ rp => rp + 1
  | .IndexExpr _ _ _ rb => rb + 1
  | .CallExpr _ _ _ rp => rp + 1
  | .UnaryExpr _ _ x => x.End
  | .BinaryExpr _ _ _ y => y.End

/-- Function `opToken`: the operator text to `go/token` operator map;
`ILLEGAL` marks the branch where the Go code panics, which the
single-rune shape of operator tokens keeps unreachable. -/
def opToken (t : Token) : GoTok :=
  if t.val = ['^'] then .XOR
  else if t.val = ['+'] then .ADD
  else if t.val = ['-'] then .SUB
  else if t.val = ['*'] then .MUL
  else if t.val = ['/'] then .QUO
  else .ILLEGAL

/-- Parser state: the remaining token stream (the lazy lexer run ahead of
time, with the one-token lookahead buffer folded into the list) and the
diagnostics collected in the `ErrorVector`. -/
structure PState where
  toks : List Token
  errs : List Diag
deriving Repr

/-- Method `Peek` of the lexer, as the parser sees it. -/
def peekT (st : PState) : Option Token :=
  st.toks.head?

/-- Method `errorf` of the parser: record a diagnostic at the position of
the offending token (Go's zero `token.Position` when it is nil). -/
def perrorf (st : PState) (tok : Option Token) (msg : ErrMsg) : PState :=
  { st with errs := st.errs ++ [{ pos := (tok.map Token.pos).getD 0, msg := msg }] }

/-- Placeholder for a nil Go `Expr` interface value; the invariants below
show it is never stored by a run of the parser. -/
def nilExpr : Expr := .BadExpr 0 0

/-- Method `consumeAnyOf`: consume an operator token whose first rune is
in `ops`. -/
def consumeAnyOf (st : PState) (ops : List Char) : Option Token × PState :=
  match peekT st with
  | none => (none, st)
  | some la =>
    if la.kind = .itemOperator then
      match la.val.head? with
      | none => (none, st)
      | some op =>
        if op ≠ Char.ofNat 65533 && ops.contains op then
          (some la, { st with toks := st.toks.tail })
        else
          (none, st)
    else
      (none, st)

/-- Method `consumeTok`: consume the lookahead token if its kind matches. -/
def consumeTok (st : PState) (ty : ItemType) : Option Token × PState :=
  match peekT st with
  | none => (none, st)
  | some la =>
    if la.kind = ty then (some la, { st with toks := st.toks.tail }) else (none, st)

/-- Operator set of precedence level `n`, from the `levels` table built in
`newParser` (level 0 is the outermost, hence loosest-binding, level). -/
def opsForLevel : Nat → List Char
  | 0 => ['^']
  | 1 => ['*', '/']
  | 2 => ['+', '-']
  | _ => []

/-- Tags naming the mutually recursive parser functions: the
`binaryLevelGen(n)` entry and its operator-folding loop, `factor`, and
`call` with its argument-list loop. -/
inductive PCall where
  | level (n : Nat)
  | bin (n : Nat) (lhs : Option Expr)
  | factor
  | call (f : Expr) (lparen : Token)
  | callLoop (f : Expr) (lparen : Token) (args : List Expr)

/-- Single-step interpreter for the mutually recursive parser functions,
fuelled so that the recursion is structural; `Parse` supplies enough fuel
for the recursion never to bottom out (the sufficiency lemma is proved
below).  Results mirror Go's `(x Expr, ok bool)` pairs next to the updated
state.

Branch by branch this is `binaryLevelGen`, `parser.factor`, `parser.call`
and the helpers `parser.num` and `parser.ident` from the source; the
`getD nilExpr` defaults stand for Go storing a nil interface value. -/
def pRun : Nat → PCall → PState → Option Expr × Bool × PState
  | 0, _, st => (none, false, st)
  | fuel + 1, c, st =>
    match c with
    | .level n =>
      if n ≥ 3 then
        pRun fuel .factor st
      else if (peekT st).isNone then
        (none, true, st)
      else
        match pRun fuel (.level (n + 1)) st with
        | (x, false, st₁) => (x, false, st₁)
        | (lhs, true, st₁) => pRun fuel (.bin n lhs) st₁
    | .bin n lhs =>
      match consumeAnyOf st (opsForLevel n) with
      | (none, st₁) => (lhs, true, st₁)
      | (some op, st₁) =>
        match pRun fuel (.level (n + 1)) st₁ with
        | (_, false, st₂) => (lhs, false, st₂)
        | (rhs, true, st₂) =>
          pRun fuel
            (.bin n (some (.BinaryExpr (lhs.getD nilExpr) op.pos (opToken op) (rhs.getD nilExpr))))
            st₂
    | .factor =>
      match consumeTok st .itemLParen with
      | (some lparen, st₁) =>
        match pRun fuel (.level 0) st₁ with
        | (x, false, st₂) => (x, false, st₂)
        | (x, true, st₂) =>
          match consumeTok st₂ .itemRParen with
          | (some rparen, st₃) =>
            (some (.ParenExpr lparen.pos (x.getD nilExpr) rparen.pos), true, st₃)
          | (none, st₃) =>
            (none, false, perrorf st₃ (peekT st₃) .expectedRParen)
      | (none, st₁) =>
        match peekT st₁ with
        | some la =>
          if la.kind = .itemNumber then
            (some (.BasicLit la.pos .FLOAT la.val), true, { st₁ with toks := st₁.toks.tail })
          else if la.kind = .itemIdentifier then
            let st₂ : PState := { st₁ with toks := st₁.toks.tail }
            let x : Expr := .Ident la.pos la.val
            match consumeTok st₂ .itemLParen with
            | (some tok, st₃) => pRun fuel (.call x tok) st₃
            | (none, st₃) => (some x, true, st₃)
          else
            (none, false, perrorf st₁ (peekT st₁) .unexpectedToken)
        | none =>
          (none, false, perrorf st₁ (peekT st₁) .unexpectedToken)
    | .call f lparen =>
      match consumeTok st .itemRParen with
      | (some rp, st₁) => (some (.CallExpr f lparen.pos [] rp.pos), true, st₁)
      | (none, st₁) => pRun fuel (.callLoop f lparen []) st₁
    | .callLoop f lparen args =>
      match pRun fuel (.level 0) st with
      | (_, false, st₁) =>
        let st₂ := perrorf st₁ (peekT st₁) (.callExpectedExprArg (peekT st₁))
        (some (.CallExpr f lparen.pos args 0), false, st₂)
      | (arg, true, st₁) =>
        let args := args ++ [arg.getD nilExpr]
        match consumeAnyOf st₁ [','] with
        | (some _, st₂) => pRun fuel (.callLoop f lparen args) st₂
        | (none, st₂) =>
          match consumeTok st₂ .itemRParen with
          | (some rp, st₃) => (some (.CallExpr f lparen.pos args rp.pos), true, st₃)
          | (none, st₃) =>
            (none, false, perrorf st₃ (peekT st₃) (.callExpectedCommaOrRParen (peekT st₃)))

/-- Fuel that `Parse` hands the parser; the sufficiency lemma below shows
the recursion never exhausts it. -/
def parserFuel (toks : List Token) : Nat :=
  12 * toks.length + 12

/-- Method `parser.Parse`: parse a full expression, then require the
statement terminator.  The outer `none` models the Go panic when the
lookahead is nil (`missing semicolon`), which a lexed stream never
produces. -/
def parserParse (st : PState) : Option (Option Expr × Bool × PState) :=
  match pRun (parserFuel st.toks) (.level 0) st with
  | (x, false, st₁) => some (x, false, st₁)
  | (x, true, st₁) =>
    match peekT st₁ with
    | none => none
    | some la =>
      if la.kind ≠ .itemSemi then
        some (none, false, perrorf st₁ (some la) (.expectedEndOfEquation la))
      else
        some (x, true, { st₁ with toks := st₁.toks.tail })

/-- Modelled from the spec: the `ErrorVector` type used by the parser is
not among the provided sources (only its use sites are), and the spec
describes its sorted output as "an ordered sequence, sorted by position,
deduplicated per position beyond the first occurrence".  `dedupByPos`
keeps the first diagnostic at each position. -/
def dedupByPosAux (seen : List Nat) : List Diag → List Diag
  | [] => []
  | d :: rest =>
    if seen.contains d.pos then dedupByPosAux seen rest
    else d :: dedupByPosAux (d.pos :: seen) rest

/-- Deduplication by position, keeping the first diagnostic at each
position. -/
def dedupByPos (l : List Diag) : List Diag :=
  dedupByPosAux [] l

/-- Modelled from the spec: `GetErrorList(Sorted)` returns the collected
diagnostics ordered by source position, deduplicated per position. -/
def GetErrorList (errs : List Diag) : List Diag :=
  dedupByPos (List.insertionSort (fun a b => a.pos ≤ b.pos) errs)

/-- Error value of the outer `Parse`: either the diagnostic list from
`GetErrorList(Sorted)`, or the plain `fmt.Errorf` error of the
`!ok`-without-diagnostics branch. -/
inductive ParseErr where
  | diags (l : List Diag)
  | notOk
deriving Repr

/-- Function `Parse` of the package on rune lists: normalize, lex, parse.
The outer `none` models the two ways the Go function fails to return
normally (lexer divergence on input the fuel cannot cover, and the
missing-semicolon panic); the success payload is `Option Expr` because the
Go `Expr` interface value could in principle be nil.  All three
possibilities are proved unreachable below. -/
def ParseL (name eqn : List Char) : Option (Except ParseErr (Option Expr)) :=
  let eqn := normalizeEqn eqn
  match lexAll eqn with
  | none => none
  | some lf =>
    match parserParse { toks := lf.toks, errs := [] } with
    | none => none
    | some (x, ok, st₁) =>
      if st₁.errs.length ≠ 0 then some (.error (.diags (GetErrorList st₁.errs)))
      else if !ok then some (.error .notOk)
      else some (.ok x)

/-- Function `Parse` on strings; the name is used only for diagnostics in
Go and does not influence the result. -/
def Parse (name eqn : String) : Option (Except ParseErr (Option Expr)) :=
  ParseL name.data eqn.data

mutual

/-- Check that an expression uses only the node kinds the grammar can
build: no `BadExpr`, `IndexExpr` or `UnaryExpr` anywhere. -/
def goodExpr : Expr → Bool
  | .BadExpr _ _ => false
  | .Ident _ _ => true
  | .BasicLit _ _ _ => true
  | .ParenExpr _ x _ => goodExpr x
  | .IndexExpr _ _ _ _ => false
  | .CallExpr f _ args _ => goodExpr f && goodArgs args
  | .UnaryExpr _ _ _ => false
  | .BinaryExpr x _ _ y => goodExpr x && goodExpr y

/-- List form of `goodExpr` for call arguments. -/
def goodArgs : List Expr → Bool
  | [] => true
  | e :: rest => goodExpr e && goodArgs rest

end

/-- Containment of a child node's span in its parent's, in the sense of
the spec sentence "spans always cover their contents". -/
def covers (parent child : Expr) : Bool :=
  decide (parent.Pos ≤ child.Pos) && decide (child.End ≤ parent.End)

mutual

/-- Formalization of the spec's span-consistency sentence: every node's
span covers the spans of all sub-expressions, recursively. -/
def specSpanCovers : Expr → Bool
  | .BadExpr _ _ => true
  | .Ident _ _ => true
  | .BasicLit _ _ _ => true
  | .ParenExpr lp x rp => covers (.ParenExpr lp x rp) x && specSpanCovers x
  | .IndexExpr x lb i rb =>
      covers (.IndexExpr x lb i rb) x && covers (.IndexExpr x lb i rb) i &&
      specSpanCovers x && specSpanCovers i
  | .CallExpr f lp args rp =>
      covers (.CallExpr f lp args rp) f && specSpanCovers f &&
      spansArgs (.CallExpr f lp args rp) args
  | .UnaryExpr p op x => covers (.UnaryExpr p op x) x && specSpanCovers x
  | .BinaryExpr x p op y =>
      covers (.BinaryExpr x p op y) x && covers (.BinaryExpr x p op y) y &&
      specSpanCovers x && specSpanCovers y

/-- List form of `specSpanCovers` for call arguments. -/
def spansArgs : Expr → List Expr → Bool
  | _, [] => true
  | parent, e :: rest => covers parent e && specSpanCovers e && spansArgs parent rest

end

/-- Spec-side reading of the normalization condition in claim and spec
text: the last non-whitespace character of the input. -/
def specLastNonWs (eqn : List Char) : Option Char :=
  (eqn.reverse.dropWhile (fun c => isSpace c)).head?

/-- Invariant of lexed token streams: the stream is nonempty and ends
with the `itemEOF` marker, which the parser never consumes. -/
def lastIsEOF (toks : List Token) : Prop :=
  toks.getLast?.map Token.kind = some .itemEOF

/-- Ordering predicate for diagnostic lists: nondecreasing positions. -/
def sortedByPos (l : List Diag) : Prop :=
  List.Pairwise (fun a b : Diag => a.pos ≤ b.pos) l

/-- Rank used by the parser termination measure, ordering the mutually
recursive functions so that every call strictly decreases
`12 * length of the token stream + rank`. -/
def pRank : PCall → Nat
  | .level n => 9 - n
  | .bin _ _ => 0
  | .factor => 5
  | .call _ _ => 11
  | .callLoop _ _ _ => 10

/-- Termination measure of the fuelled parser. -/
def pMeasure (c : PCall) (st : PState) : Nat :=
  12 * st.toks.length + pRank c

/-- Structural precondition of each parser entry point: level indices stay
in the level table, and the accumulated expressions handed to the binary
fold and the call loop are present and well-formed. -/
def POk : PCall → Prop
  | .level n => n ≤ 3
  | .bin n lhs => n ≤ 2 ∧ ∃ e, lhs = some e ∧ goodExpr e = true
  | .factor => True
  | .call f _ => goodExpr f = true
  | .callLoop f _ args => goodExpr f = true ∧ goodArgs args = true

/-- Totality of the position comparison used by the diagnostic sort. -/
instance : IsTotal Diag (fun a b => a.pos ≤ b.pos) :=
  ⟨fun a b => Nat.le_total a.pos b.pos⟩

/-- Transitivity of the position comparison used by the diagnostic sort. -/
instance : IsTrans Diag (fun a b => a.pos ≤ b.pos) :=
  ⟨fun _ _ _ h1 h2 => Nat.le_trans h1 h2⟩

/-- C1: the claim predicts that "2+3*4" parses to a BinaryExpr with
top-level operator `+` whose right operand is the product; on the code the
level table runs loosest-first `^`, then `*` and `/`, then `+` and `-`, so
the top-level operator is `*` and no tree with a top-level `+` is
returned. -/
theorem C1_counterexample :
    Parse "x" "2+3*4" = some (.ok (some (.BinaryExpr
      (.BinaryExpr (.BasicLit 2 .FLOAT ['2']) 3 .ADD (.BasicLit 4 .FLOAT ['3']))
      5 .MUL (.BasicLit 6 .FLOAT ['4'])))) ∧
    ¬ ∃ (x : Expr) (p : Nat) (y : Expr),
        Parse "x" "2+3*4" = some (.ok (some (.BinaryExpr x p .ADD y))) := by
  have hp : Parse "x" "2+3*4" = some (.ok (some (.BinaryExpr
      (.BinaryExpr (.BasicLit 2 .FLOAT ['2']) 3 .ADD (.BasicLit 4 .FLOAT ['3']))
      5 .MUL (.BasicLit 6 .FLOAT ['4'])))) := by rfl
  refine ⟨hp, ?_⟩
  rintro ⟨x, p, y, h⟩
  rw [hp] at h
  simp at h

/-- C1 (amended): "2+3*4" parses successfully to
BinaryExpr(BinaryExpr(2, +, 3), *, 4): addition binds tighter than
multiplication because the precedence table lists exponentiation as the
loosest level, then multiplication/division, then addition/subtraction as
the tightest binary level. -/
theorem C1_amended :
    Parse "x" "2+3*4" = some (.ok (some (.BinaryExpr
      (.BinaryExpr (.BasicLit 2 .FLOAT ['2']) 3 .ADD (.BasicLit 4 .FLOAT ['3']))
      5 .MUL (.BasicLit 6 .FLOAT ['4'])))) := by
  rfl

/-- C3: the claim says "2^3^2" parses to a left-nested exponentiation
tree; the lexer's `isOperator` set omits the caret, so `^3^2` is scanned
as a single identifier token, the parser never sees an exponentiation
operator, and `Parse` fails with an expected-end-of-equation diagnostic.
The parser's own `opToken` maps `^` to `token.XOR` ("we interpret XOR as
exponentiation") and the level table reserves level 0 for `^`, so the
lexer contradicts the parser's design: the claim matches the intent and
the code is the slip. -/
theorem C3_eval :
    Parse "x" "2^3^2" = some (.error (.diags
      [⟨6, .expectedEndOfEquation ⟨.itemIdentifier, 6, ['^', '3', '^', '2']⟩⟩])) ∧
    (∃ lf, lexAll (normalizeEqn "2^3^2".data) = some lf ∧
      lf.toks = [⟨.itemNumber, 2, ['2']⟩, ⟨.itemIdentifier, 6, ['^', '3', '^', '2']⟩,
                 ⟨.itemSemi, 7, [';']⟩, ⟨.itemEOF, 7, []⟩]) ∧
    isOperator '^' = false := by
  exact ⟨by rfl, ⟨_, by rfl, by rfl⟩, by rfl⟩

/-- C4: lexing "(a)(b)" synthesizes an implicit `*` operator token between
the close-paren and the immediately following open-paren, and the parse
result is a BinaryExpr with operator `*` whose operands are the two
parenthesized factors. -/
theorem C4_implicit_mul :
    (∃ lf, lexAll (normalizeEqn "(a)(b)".data) = some lf ∧
      lf.toks = [⟨.itemLParen, 2, ['(']⟩, ⟨.itemIdentifier, 3, ['a']⟩,
                 ⟨.itemRParen, 4, [')']⟩, ⟨.itemOperator, 4, ['*']⟩,
                 ⟨.itemLParen, 5, ['(']⟩, ⟨.itemIdentifier, 6, ['b']⟩,
                 ⟨.itemRParen, 7, [')']⟩, ⟨.itemSemi, 8, [';']⟩,
                 ⟨.itemEOF, 8, []⟩]) ∧
    Parse "x" "(a)(b)" = some (.ok (some (.BinaryExpr
      (.ParenExpr 2 (.Ident 3 ['a']) 4) 4 .MUL
      (.ParenExpr 5 (.Ident 6 ['b']) 7)))) := by
  exact ⟨⟨_, by rfl, by rfl⟩, by rfl⟩

/-- C5: "MIN(a,b)+c" parses to a top-level `+` BinaryExpr whose left
operand is a CallExpr with callee Ident "MIN" and arguments
[Ident "a", Ident "b"] in order, and whose right operand is Ident "c". -/
theorem C5_call :
    Parse "x" "MIN(a,b)+c" = some (.ok (some (.BinaryExpr
      (.CallExpr (.Ident 4 ['M', 'I', 'N']) 5 [.Ident 6 ['a'], .Ident 8 ['b']] 9)
      10 .ADD (.Ident 11 ['c'])))) := by
  rfl

/-- C6: the claim predicts that no terminator is appended when the last
non-whitespace character is already `;`; on the code
`utf8.DecodeLastRuneInString` inspects the last rune outright, so the
input "a; " whose last non-whitespace character is `;` still gets a
terminator appended. -/
theorem C6_counterexample :
    normalizeEqn "a; ".data = "a; ;".data ∧ specLastNonWs "a; ".data = some ';' := by
  exact ⟨by rfl, by rfl⟩

/-- C6 (amended): before scanning begins, Parse appends a statement
terminator if and only if the input's last character outright, whitespace
included, is not `;` (the empty input also gets one). -/
theorem C6_amended :
    ∀ eqn : List Char,
      normalizeEqn eqn = if eqn.getLast? = some ';' then eqn else eqn ++ [';'] := by
  intro eqn
  unfold normalizeEqn
  by_cases h : eqn.getLast? = some ';' <;> simp [h]

/-- C7: the claim says a lexical error is reported to the diagnostic list
that `Parse` returns; on the code `lexer.errorf` writes the message with
`log.Printf` instead, so for the unterminated literal `"ab` the lexical
message (unexpected EOF) appears in the log but in none of the returned
diagnostics, which carry only the parser's subsequent unexpected-token
error. -/
theorem C7_counterexample :
    Parse "x" "\"ab" = some (.error (.diags [⟨4, .unexpectedToken⟩])) ∧
    (∃ lf, lexAll (normalizeEqn "\"ab".data) = some lf ∧
      lf.logs = [.unexpectedEOF] ∧ lf.toks = [⟨.itemEOF, 4, ['a', 'b']⟩]) ∧
    ¬ ∃ d, d ∈ [({ pos := 4, msg := .unexpectedToken } : Diag)] ∧ d.msg = ErrMsg.unexpectedEOF := by
  refine ⟨by rfl, ⟨_, by rfl, by rfl, by rfl⟩, ?_⟩
  rintro ⟨d, hd, hm⟩
  simp at hd
  rw [hd] at hm
  simp at hm

/-- C7 (amended): a lexical error halts scanning immediately with no
resynchronization; the message is written to the program log rather than
to the diagnostic list (Parse's diagnostics then report a subsequent
syntax error), and the token stream is terminated with an `itemEOF`
marker after which no further tokens are produced. -/
theorem C7_amended :
    (∀ (l : LexState) (msg : ErrMsg),
      (lerrorf l msg).toks =
        l.toks ++ [{ kind := .itemEOF, pos := fileBase + l.pos,
                     val := extractList l.s l.start l.pos }] ∧
      (lerrorf l msg).logs = l.logs ++ [msg]) ∧
    (∃ lf, lexAll (normalizeEqn "\"ab".data) = some lf ∧
      lf.toks = [⟨.itemEOF, 4, ['a', 'b']⟩] ∧ lf.logs = [.unexpectedEOF]) := by
  refine ⟨fun l msg => ⟨rfl, rfl⟩, ⟨_, by rfl, by rfl, by rfl⟩⟩

/-- C8: the claim says every composite node's span covers its contents in
every successfully parsed tree; on the code token positions are taken
after the token's runes, so for "(abc)" the inner identifier's End()
(position 5 plus length 3) exceeds the enclosing ParenExpr's End()
(Rparen 6 plus 1), and the span-coverage formalization evaluates to
false on the returned tree. -/
theorem C8_counterexample :
    Parse "x" "(abc)" = some (.ok (some (.ParenExpr 2 (.Ident 5 ['a', 'b', 'c']) 6))) ∧
    Expr.End (.Ident 5 ['a', 'b', 'c']) = 8 ∧
    Expr.End (.ParenExpr 2 (.Ident 5 ['a', 'b', 'c']) 6) = 7 ∧
    specSpanCovers (.ParenExpr 2 (.Ident 5 ['a', 'b', 'c']) 6) = false := by
  exact ⟨by rfl, by rfl, by rfl, by rfl⟩

/-- C8 (amended): BinaryExpr.End() equals the right operand's End() and
UnaryExpr.End() equals the operand's End(), by definition; ParenExpr and
CallExpr derive End() as the stored close-paren position plus one rather
than from the inner child's End(), and since token positions point past
the token an inner child's End() can exceed its parent's, so spans need
not cover contents. -/
theorem C8_amended :
    (∀ (x : Expr) (p : Nat) (op : GoTok) (y : Expr),
      Expr.End (.BinaryExpr x p op y) = y.End) ∧
    (∀ (p : Nat) (op : GoTok) (x : Expr), Expr.End (.UnaryExpr p op x) = x.End) ∧
    (∀ (lp : Nat) (x : Expr) (rp : Nat), Expr.End (.ParenExpr lp x rp) = rp + 1) ∧
    (∀ (f : Expr) (lp : Nat) (args : List Expr) (rp : Nat),
      Expr.End (.CallExpr f lp args rp) = rp + 1) := by
  exact ⟨fun _ _ _ _ => rfl, fun _ _ _ => rfl, fun _ _ _ => rfl, fun _ _ _ _ => rfl⟩

theorem getLast?_char {s : List Char} {c : Char}
    (h : s.getLast? = some c) :
    1 ≤ s.length ∧ ∀ hh : s.length - 1 < s.length, s.get ⟨s.length - 1, hh⟩ = c := by
  rcases s with _ | ⟨a, t⟩
  · simp at h
  · refine ⟨by simp, fun hh => ?_⟩
    have h1 : (a :: t).getLast? = (a :: t).get? ((a :: t).length - 1) := by
      rw [List.getLast?_eq_get?]
    rw [h] at h1
    have h2 : (a :: t).get? ((a :: t).length - 1) = some ((a :: t).get ⟨(a :: t).length - 1, hh⟩) :=
      List.get?_eq_get hh
    rw [h2] at h1
    exact (Option.some.injEq _ _ ▸ h1.symm)

theorem charAt_lastSemi {s : List Char} (hsemi : s.getLast? = some ';')
    (i : Nat) (h : i < s.length) (hne : s.get ⟨i, h⟩ ≠ ';') : i < s.length - 1 := by
  rcases getLast?_char hsemi with ⟨h1, h2⟩
  by_contra hc
  have hi : i = s.length - 1 := by omega
  exact hne (by rw [show (⟨i, h⟩ : Fin s.length) = ⟨s.length - 1, by omega⟩ from Fin.ext hi]
              ; exact h2 (by omega))

theorem lacceptRunAux_spec (valid : List Char) (hv : valid.contains ';' = false) :
    ∀ (rem : Nat) (l : LexState),
      rem = l.s.length - l.pos →
      l.s.getLast? = some ';' →
      l.pos ≤ l.s.length - 1 →
      ∃ p, lacceptRunAux valid rem l = { l with pos := p, width := 1 } ∧
        l.pos ≤ p ∧ p ≤ l.s.length - 1 ∧
        (∀ h : l.pos < l.s.length, valid.contains (l.s.get ⟨l.pos, h⟩) = true → l.pos + 1 ≤ p) := by
  intro rem
  induction rem with
  | zero =>
    intro l hrem hsemi hpos
    have h1 := (getLast?_char hsemi).1
    omega
  | succ rem ih =>
    intro l hrem hsemi hpos
    have hlen := (getLast?_char hsemi).1
    have hlt : l.pos < l.s.length := by omega
    simp only [lacceptRunAux, dif_pos hlt]
    by_cases hc : valid.contains (l.s.get ⟨l.pos, hlt⟩) = true
    · have hne : l.s.get ⟨l.pos, hlt⟩ ≠ ';' := by
        intro he
        rw [he] at hc
        simp at hc
        simp [hc] at hv
      have hlt1 := charAt_lastSemi hsemi l.pos hlt hne
      obtain ⟨p, hp, hp1, hp2, _⟩ := ih { l with pos := l.pos + 1, width := 1 }
        (by simp; omega) hsemi (by simp; omega)
      rw [if_pos hc]
      exact ⟨p, hp, by simp at hp1; omega, by simpa using hp2, fun _ _ => by simp at hp1; omega⟩
    · rw [if_neg hc]
      exact ⟨l.pos, rfl, Nat.le_refl _, hpos, fun h hcc => absurd hcc hc⟩


theorem lidentLoopAux_spec :
    ∀ (rem : Nat) (l : LexState),
      rem = l.s.length - l.pos →
      l.s.getLast? = some ';' →
      l.pos ≤ l.s.length - 1 →
      ∃ p, lidentLoopAux rem l = { l with pos := p, width := 1 } ∧
        l.pos ≤ p ∧ p ≤ l.s.length - 1 ∧
        (∀ h : l.pos < l.s.length, isAlphaNumeric (l.s.get ⟨l.pos, h⟩) = true → l.pos + 1 ≤ p) := by
  intro rem
  induction rem with
  | zero =>
    intro l hrem hsemi hpos
    have h1 := (getLast?_char hsemi).1
    omega
  | succ rem ih =>
    intro l hrem hsemi hpos
    have hlen := (getLast?_char hsemi).1
    have hlt : l.pos < l.s.length := by omega
    simp only [lidentLoopAux, dif_pos hlt]
    by_cases hc : isAlphaNumeric (l.s.get ⟨l.pos, hlt⟩) = true
    · have hne : l.s.get ⟨l.pos, hlt⟩ ≠ ';' := by
        intro he
        rw [he] at hc
        simp [isAlphaNumeric] at hc
      have hlt1 := charAt_lastSemi hsemi l.pos hlt hne
      obtain ⟨p, hp, hp1, hp2, _⟩ := ih { l with pos := l.pos + 1, width := 1 }
        (by simp; omega) hsemi (by simp; omega)
      rw [if_pos hc]
      exact ⟨p, hp, by simp at hp1; omega, by simpa using hp2, fun _ _ => by simp at hp1; omega⟩
    · rw [if_neg hc]
      exact ⟨l.pos, rfl, Nat.le_refl _, hpos, fun h hcc => absurd hcc hc⟩

theorem llitLoopAux_spec (delim : Char) :
    ∀ (rem : Nat) (l : LexState),
      rem = l.s.length - l.pos →
      l.pos ≤ l.s.length →
      l.width = 1 →
      1 ≤ l.s.length →
      ∃ p, llitLoopAux delim rem l = { l with pos := p, width := 1 } ∧
        min l.pos (l.s.length - 1) ≤ p ∧ p ≤ l.s.length - 1 := by
  intro rem
  induction rem with
  | zero =>
    intro l hrem hpos hw hlen
    have hge : l.s.length ≤ l.pos := by omega
    simp only [llitLoopAux]
    refine ⟨l.pos - 1, ?_, by omega, by omega⟩
    obtain ⟨ls, lpos, lstart, lwidth, lsemi, ltoks, llogs⟩ := l
    simp at hw
    simp [hw]
  | succ rem ih =>
    intro l hrem hpos hw hlen
    have hlt : l.pos < l.s.length := by omega
    simp only [llitLoopAux, dif_pos hlt]
    by_cases hc : (l.s.get ⟨l.pos, hlt⟩ = delim || l.s.get ⟨l.pos, hlt⟩ = eofRune) = true
    · rw [if_pos hc]
      exact ⟨l.pos, rfl, by omega, by omega⟩
    · rw [if_neg hc]
      obtain ⟨p, hp, hp1, hp2⟩ := ih { l with pos := l.pos + 1, width := 1 }
        (by simp; omega) (by simp; omega) (by simp) (by simpa using hlen)
      exact ⟨p, hp, by simp at hp1 hp2; omega, by simpa using hp2⟩

theorem lcommentLoopAux_spec :
    ∀ (rem : Nat) (l : LexState),
      rem = l.s.length - l.pos →
      l.pos ≤ l.s.length →
      l.width = 1 →
      1 ≤ l.s.length →
      ∃ p, lcommentLoopAux rem l = { l with pos := p, width := 1 } ∧
        min l.pos (l.s.length - 1) ≤ p ∧ p ≤ l.s.length - 1 := by
  intro rem
  induction rem with
  | zero =>
    intro l hrem hpos hw hlen
    have hge : l.s.length ≤ l.pos := by omega
    simp only [lcommentLoopAux]
    refine ⟨l.pos - 1, ?_, by omega, by omega⟩
    obtain ⟨ls, lpos, lstart, lwidth, lsemi, ltoks, llogs⟩ := l
    simp at hw
    simp [hw]
  | succ rem ih =>
    intro l hrem hpos hw hlen
    have hlt : l.pos < l.s.length := by omega
    simp only [lcommentLoopAux, dif_pos hlt]
    by_cases hc : (l.s.get ⟨l.pos, hlt⟩ = '\n' || l.s.get ⟨l.pos, hlt⟩ = eofRune) = true
    · rw [if_pos hc]
      exact ⟨l.pos, rfl, by omega, by omega⟩
    · rw [if_neg hc]
      obtain ⟨p, hp, hp1, hp2⟩ := ih { l with pos := l.pos + 1, width := 1 }
        (by simp; omega) (by simp; omega) (by simp) (by simpa using hlen)
      exact ⟨p, hp, by simp at hp1 hp2; omega, by simpa using hp2⟩

theorem lnext_fields (ls : List Char) (lpos lstart lwidth : Nat) (lsemi : Bool)
    (ltoks : List Token) (llogs : List ErrMsg) (h : lpos < ls.length) :
    lnext ⟨ls, lpos, lstart, lwidth, lsemi, ltoks, llogs⟩ =
      (ls.get ⟨lpos, h⟩, ⟨ls, lpos + 1, lstart, 1, lsemi, ltoks, llogs⟩) := by
  simp [lnext, h]

theorem lpeek_fields (ls : List Char) (lpos lstart lwidth : Nat) (lsemi : Bool)
    (ltoks : List Token) (llogs : List ErrMsg) (h : lpos < ls.length) :
    lpeek ⟨ls, lpos, lstart, lwidth, lsemi, ltoks, llogs⟩ =
      (ls.get ⟨lpos, h⟩, ⟨ls, lpos, lstart, 1, lsemi, ltoks, llogs⟩) := by
  simp [lpeek, lnext, lbackup, h]

theorem lacceptRun_fields (valid : List Char) (hv : valid.contains ';' = false)
    (ls : List Char) (lpos lstart lwidth : Nat) (lsemi : Bool)
    (ltoks : List Token) (llogs : List ErrMsg)
    (hsemi : ls.getLast? = some ';') (hpos : lpos ≤ ls.length - 1) :
    ∃ p, lacceptRun valid ⟨ls, lpos, lstart, lwidth, lsemi, ltoks, llogs⟩ =
        ⟨ls, p, lstart, 1, lsemi, ltoks, llogs⟩ ∧
      lpos ≤ p ∧ p ≤ ls.length - 1 ∧
      (∀ h : lpos < ls.length, valid.contains (ls.get ⟨lpos, h⟩) = true → lpos + 1 ≤ p) := by
  simpa [lacceptRun] using lacceptRunAux_spec valid hv (ls.length - lpos)
    ⟨ls, lpos, lstart, lwidth, lsemi, ltoks, llogs⟩ rfl hsemi hpos

theorem lidentLoop_fields (ls : List Char) (lpos lstart lwidth : Nat) (lsemi : Bool)
    (ltoks : List Token) (llogs : List ErrMsg)
    (hsemi : ls.getLast? = some ';') (hpos : lpos ≤ ls.length - 1) :
    ∃ p, lidentLoop ⟨ls, lpos, lstart, lwidth, lsemi, ltoks, llogs⟩ =
        ⟨ls, p, lstart, 1, lsemi, ltoks, llogs⟩ ∧
      lpos ≤ p ∧ p ≤ ls.length - 1 ∧
      (∀ h : lpos < ls.length, isAlphaNumeric (ls.get ⟨lpos, h⟩) = true → lpos + 1 ≤ p) := by
  simpa [lidentLoop] using lidentLoopAux_spec (ls.length - lpos)
    ⟨ls, lpos, lstart, lwidth, lsemi, ltoks, llogs⟩ rfl hsemi hpos

theorem llitLoop_fields (delim : Char) (ls : List Char) (lpos lstart : Nat) (lsemi : Bool)
    (ltoks : List Token) (llogs : List ErrMsg)
    (hpos : lpos ≤ ls.length) (hlen : 1 ≤ ls.length) :
    ∃ p, llitLoop delim ⟨ls, lpos, lstart, 1, lsemi, ltoks, llogs⟩ =
        ⟨ls, p, lstart, 1, lsemi, ltoks, llogs⟩ ∧
      min lpos (ls.length - 1) ≤ p ∧ p ≤ ls.length - 1 := by
  simpa [llitLoop] using llitLoopAux_spec delim (ls.length - lpos)
    ⟨ls, lpos, lstart, 1, lsemi, ltoks, llogs⟩ rfl hpos rfl hlen

theorem lcommentLoop_fields (ls : List Char) (lpos lstart : Nat) (lsemi : Bool)
    (ltoks : List Token) (llogs : List ErrMsg)
    (hpos : lpos ≤ ls.length) (hlen : 1 ≤ ls.length) :
    ∃ p, lcommentLoop ⟨ls, lpos, lstart, 1, lsemi, ltoks, llogs⟩ =
        ⟨ls, p, lstart, 1, lsemi, ltoks, llogs⟩ ∧
      min lpos (ls.length - 1) ≤ p ∧ p ≤ ls.length - 1 := by
  simpa [lcommentLoop] using lcommentLoopAux_spec (ls.length - lpos)
    ⟨ls, lpos, lstart, 1, lsemi, ltoks, llogs⟩ rfl hpos rfl hlen

theorem laccept_fields (valid : List Char) (hv : valid.contains ';' = false)
    (ls : List Char) (lpos lstart lwidth : Nat) (lsemi : Bool)
    (ltoks : List Token) (llogs : List ErrMsg)
    (hsemi : ls.getLast? = some ';') (hpos : lpos ≤ ls.length - 1) :
    ∃ p, (laccept valid ⟨ls, lpos, lstart, lwidth, lsemi, ltoks, llogs⟩).2 =
        ⟨ls, p, lstart, 1, lsemi, ltoks, llogs⟩ ∧
      lpos ≤ p ∧ p ≤ ls.length - 1 ∧
      (∀ h : lpos < ls.length, valid.contains (ls.get ⟨lpos, h⟩) = true → p = lpos + 1) := by
  have hlen := (getLast?_char hsemi).1
  have hlt : lpos < ls.length := by omega
  simp only [laccept, lnext_fields ls lpos lstart lwidth lsemi ltoks llogs hlt]
  by_cases hc : valid.contains (ls.get ⟨lpos, hlt⟩) = true
  · have hne : ls.get ⟨lpos, hlt⟩ ≠ ';' := by
      intro he
      rw [he] at hc
      simp at hc
      simp [hc] at hv
    have hlt1 := charAt_lastSemi hsemi lpos hlt hne
    rw [if_pos hc]
    exact ⟨lpos + 1, rfl, by omega, by omega, fun _ _ => rfl⟩
  · rw [if_neg hc]
    refine ⟨lpos, ?_, Nat.le_refl _, hpos, fun h hcc => absurd hcc hc⟩
    simp [lbackup]

theorem lexNumber_fields (ls : List Char) (lpos lstart lwidth : Nat) (lsemi : Bool)
    (ltoks : List Token) (llogs : List ErrMsg)
    (hsemi : ls.getLast? = some ';') (hpos : lpos ≤ ls.length - 1) (hlt : lpos < ls.length)
    (hstart : isDigit (ls.get ⟨lpos, hlt⟩) = true ∨ ls.get ⟨lpos, hlt⟩ = '.') :
    ∃ p, lexNumber ⟨ls, lpos, lstart, lwidth, lsemi, ltoks, llogs⟩ =
        lemit ⟨ls, p, lstart, 1, lsemi, ltoks, llogs⟩ .itemNumber ∧
      lpos + 1 ≤ p ∧ p ≤ ls.length - 1 := by
  obtain ⟨p₁, e₁, le₁, le₁', prog₁⟩ :=
    lacceptRun_fields digitRunes (by decide) ls lpos lstart lwidth lsemi ltoks llogs hsemi hpos
  obtain ⟨p₂, e₂, le₂, le₂', prog₂⟩ :=
    laccept_fields ['.'] (by decide) ls p₁ lstart 1 lsemi ltoks llogs hsemi le₁'
  obtain ⟨p₃, e₃, le₃, le₃', _⟩ :=
    lacceptRun_fields digitRunes (by decide) ls p₂ lstart 1 lsemi ltoks llogs hsemi le₂'
  obtain ⟨p₄, e₄, le₄, le₄', _⟩ :=
    laccept_fields ['e', 'E'] (by decide) ls p₃ lstart 1 lsemi ltoks llogs hsemi le₃'
  have hprog : lpos + 1 ≤ p₂ := by
    rcases hstart with hd | hd
    · have := prog₁ hlt (by simpa [isDigit] using hd)
      omega
    · by_cases hpp : lpos + 1 ≤ p₁
      · omega
      · have hp1 : p₁ = lpos := by omega
        subst hp1
        have := prog₂ hlt (by rw [hd]; decide)
        omega
  simp only [lexNumber]
  rw [e₁, e₂, e₃]
  by_cases hb : (laccept ['e', 'E'] ⟨ls, p₃, lstart, 1, lsemi, ltoks, llogs⟩).1 = true
  · rw [if_pos hb, e₄]
    obtain ⟨p₅, e₅, le₅, le₅', _⟩ :=
      laccept_fields ['+', '-'] (by decide) ls p₄ lstart 1 lsemi ltoks llogs hsemi le₄'
    rw [e₅]
    obtain ⟨p₆, e₆, le₆, le₆', _⟩ :=
      lacceptRun_fields digitRunes (by decide) ls p₅ lstart 1 lsemi ltoks llogs hsemi le₅'
    rw [e₆]
    exact ⟨p₆, rfl, by omega, le₆'⟩
  · rw [if_neg hb, e₄]
    exact ⟨p₄, rfl, by omega, le₄'⟩

theorem lexIdentifier_fields (ls : List Char) (lpos lstart lwidth : Nat) (lsemi : Bool)
    (ltoks : List Token) (llogs : List ErrMsg)
    (hsemi : ls.getLast? = some ';') (hpos : lpos ≤ ls.length - 1) (hlt : lpos < ls.length)
    (hstart : isAlphaNumeric (ls.get ⟨lpos, hlt⟩) = true) :
    ∃ p, lexIdentifier ⟨ls, lpos, lstart, lwidth, lsemi, ltoks, llogs⟩ =
        lemit ⟨ls, p, lstart, 1, lsemi, ltoks, llogs⟩ .itemIdentifier ∧
      lpos + 1 ≤ p ∧ p ≤ ls.length - 1 := by
  obtain ⟨p, hp, le1, le2, prog⟩ :=
    lidentLoop_fields ls lpos lstart lwidth lsemi ltoks llogs hsemi hpos
  refine ⟨p, ?_, prog hlt hstart, le2⟩
  simp only [lexIdentifier]
  rw [hp]

theorem lexOperator_fields (ls : List Char) (lpos lstart lwidth : Nat) (lsemi : Bool)
    (ltoks : List Token) (llogs : List ErrMsg)
    (hsemi : ls.getLast? = some ';') (hlt : lpos < ls.length)
    (hne : ls.get ⟨lpos, hlt⟩ ≠ ';') :
    ∃ st w sm tk, lexOperator ⟨ls, lpos, lstart, lwidth, lsemi, ltoks, llogs⟩ =
      ⟨ls, lpos + 1, st, w, sm, tk, llogs⟩ := by
  have hlt1 := charAt_lastSemi hsemi lpos hlt hne
  simp only [lexOperator, lnext_fields ls lpos lstart lwidth lsemi ltoks llogs hlt]
  by_cases hr : ls.get ⟨lpos, hlt⟩ = ')'
  · rw [if_pos hr]
    simp only [lemit]
    rw [lpeek_fields ls (lpos + 1) _ _ _ _ _ (by omega)]
    by_cases hq : ls.get ⟨lpos + 1, by omega⟩ = '('
    · rw [if_pos hq]
      exact ⟨_, _, _, _, rfl⟩
    · rw [if_neg hq]
      exact ⟨_, _, _, _, rfl⟩
  · rw [if_neg hr]
    exact ⟨_, _, _, _, rfl⟩

theorem lexLiteral_fields (ls : List Char) (lpos lstart lwidth : Nat) (lsemi : Bool)
    (ltoks : List Token) (llogs : List ErrMsg)
    (hsemi : ls.getLast? = some ';') (hlt : lpos < ls.length)
    (hne : ls.get ⟨lpos, hlt⟩ ≠ ';') :
    (lexLiteral ⟨ls, lpos, lstart, lwidth, lsemi, ltoks, llogs⟩).2 = true ∨
    ∃ p st w sm tk lg, lexLiteral ⟨ls, lpos, lstart, lwidth, lsemi, ltoks, llogs⟩ =
        (⟨ls, p, st, w, sm, tk, lg⟩, false) ∧ lpos + 1 ≤ p ∧ p ≤ ls.length := by
  have hlen := (getLast?_char hsemi).1
  have hlt1 := charAt_lastSemi hsemi lpos hlt hne
  simp only [lexLiteral, lnext_fields ls lpos lstart lwidth lsemi ltoks llogs hlt, lignore]
  obtain ⟨p, hp, hp1, hp2⟩ := llitLoop_fields (ls.get ⟨lpos, hlt⟩) ls (lpos + 1) (lpos + 1)
    lsemi ltoks llogs (by omega) (by omega)
  rw [hp]
  rw [lpeek_fields ls p _ _ _ _ _ (by omega)]
  simp only [lexLiteralEnd]
  by_cases hq : ls.get ⟨p, by omega⟩ = ls.get ⟨lpos, hlt⟩
  · rw [if_neg (by simpa using hq)]
    right
    simp only [lemit]
    rw [lnext_fields ls p _ _ _ _ _ (by omega)]
    exact ⟨p + 1, _, _, _, _, _, rfl, by omega, by omega⟩
  · rw [if_pos (by simpa using hq)]
    left
    rfl

theorem lastIsEOF_lemitEOF (l : LexState) : lastIsEOF (lemit l .itemEOF).toks := by
  simp [lastIsEOF, lemit]

theorem lexLiteralEnd_halt (delim : Char) (q : Char × LexState)
    (h : (lexLiteralEnd delim q).2 = true) :
    lastIsEOF (lexLiteralEnd delim q).1.toks := by
  simp only [lexLiteralEnd] at h ⊢
  by_cases hc : q.1 ≠ delim
  · rw [if_pos hc]
    exact lastIsEOF_lemitEOF _
  · rw [if_neg hc] at h
    simp at h

theorem lexLiteral_halt (l : LexState) (h : (lexLiteral l).2 = true) :
    lastIsEOF (lexLiteral l).1.toks := by
  have he : lexLiteral l =
      lexLiteralEnd (lnext l).1 (lpeek (llitLoop (lnext l).1 (lignore (lnext l).2))) := rfl
  rw [he] at h ⊢
  exact lexLiteralEnd_halt _ _ h

theorem lexRun_lastEOF : ∀ (fuel : Nat) (l : LexState) (lf : LexState),
    lexRun fuel l = some lf → lastIsEOF lf.toks := by
  intro fuel
  induction fuel with
  | zero => intro l lf h; simp [lexRun] at h
  | succ fuel ih =>
    intro l lf h
    simp only [lexRun] at h
    split at h
    · injection h with h
      subst h
      exact lastIsEOF_lemitEOF _
    · split at h
      · split at h
        · exact ih _ _ h
        · exact ih _ _ h
      · split at h
        · exact ih _ _ h
        · split at h
          · exact ih _ _ h
          · split at h
            · exact ih _ _ h
            · split at h
              · split at h
                · injection h with h
                  subst h
                  exact lexLiteral_halt _ (by assumption)
                · exact ih _ _ h
              · split at h
                · exact ih _ _ h
                · split at h
                  · exact ih _ _ h
                  · injection h with h
                    subst h
                    exact lastIsEOF_lemitEOF _

theorem lexRun_total : ∀ (fuel : Nat) (l : LexState),
    l.s.getLast? = some ';' → l.pos ≤ l.s.length → l.s.length - l.pos < fuel →
    ∃ lf, lexRun fuel l = some lf := by
  intro fuel
  induction fuel with
  | zero => intro l _ _ h; omega
  | succ fuel ih =>
    rintro ⟨ls, lpos, lstart, lwidth, lsemi, ltoks, llogs⟩ hsemi hpos hfuel
    dsimp only at hsemi hpos hfuel
    have hlen := (getLast?_char hsemi).1
    simp only [lexRun]
    by_cases hlt : lpos < ls.length
    case neg =>
      rw [show lnext ⟨ls, lpos, lstart, lwidth, lsemi, ltoks, llogs⟩ =
          (eofRune, ⟨ls, lpos, lstart, lwidth, lsemi, ltoks, llogs⟩) from by
        simp [lnext, hlt]]
      dsimp only
      rw [if_pos rfl]
      exact ⟨_, rfl⟩
    case pos =>
      rw [lnext_fields ls lpos lstart lwidth lsemi ltoks llogs hlt]
      dsimp only
      by_cases h0 : ls.get ⟨lpos, hlt⟩ = eofRune
      · rw [if_pos h0]
        exact ⟨_, rfl⟩
      rw [if_neg h0]
      by_cases h1 : ls.get ⟨lpos, hlt⟩ = '/'
      · rw [if_pos h1]
        have hne : ls.get ⟨lpos, hlt⟩ ≠ ';' := by rw [h1]; decide
        have hlt2 : lpos + 1 < ls.length := by
          have := charAt_lastSemi hsemi lpos hlt hne
          omega
        rw [lpeek_fields ls (lpos + 1) lstart 1 lsemi ltoks llogs hlt2]
        dsimp only
        by_cases h1b : ls.get ⟨lpos + 1, hlt2⟩ = '/'
        · rw [if_pos h1b]
          rw [lnext_fields ls (lpos + 1) lstart 1 lsemi ltoks llogs hlt2]
          dsimp only
          simp only [lexComment]
          obtain ⟨p, hp, hp1, hp2⟩ := lcommentLoop_fields ls (lpos + 2) lstart lsemi ltoks llogs
            (by omega) (by omega)
          rw [hp]
          simp only [lignore]
          exact ih ⟨ls, p, p, 1, lsemi, ltoks, llogs⟩ hsemi (by dsimp only; omega)
            (by dsimp only; omega)
        · rw [if_neg h1b]
          exact ih (lemit ⟨ls, lpos + 1, lstart, 1, lsemi, ltoks, llogs⟩ .itemOperator)
            hsemi (by dsimp only [lemit]; omega) (by dsimp only [lemit]; omega)
      rw [if_neg h1]
      by_cases h2 : ls.get ⟨lpos, hlt⟩ = ';'
      · rw [if_pos h2]
        exact ih (lemit ⟨ls, lpos + 1, lstart, 1, lsemi, ltoks, llogs⟩ .itemSemi) hsemi
          (by dsimp only [lemit]; omega) (by dsimp only [lemit]; omega)
      rw [if_neg h2]
      by_cases h3 : isSpace (ls.get ⟨lpos, hlt⟩) = true
      · rw [if_pos h3]
        by_cases h3b : (decide (ls.get ⟨lpos, hlt⟩ = '\n') && lsemi) = true
        · rw [if_pos h3b]
          exact ih (lignore (lemit ⟨ls, lpos + 1, lstart, 1, lsemi, ltoks, llogs⟩ .itemSemi))
            hsemi (by dsimp only [lignore, lemit]; omega) (by dsimp only [lignore, lemit]; omega)
        · rw [if_neg h3b]
          exact ih (lignore ⟨ls, lpos + 1, lstart, 1, lsemi, ltoks, llogs⟩) hsemi
            (by dsimp only [lignore]; omega) (by dsimp only [lignore]; omega)
      rw [if_neg h3]
      have hback : lbackup ⟨ls, lpos + 1, lstart, 1, lsemi, ltoks, llogs⟩ =
          ⟨ls, lpos, lstart, 1, lsemi, ltoks, llogs⟩ := by
        simp [lbackup]
      by_cases h4 : (isDigit (ls.get ⟨lpos, hlt⟩) || decide (ls.get ⟨lpos, hlt⟩ = '.')) = true
      · rw [if_pos h4, hback]
        obtain ⟨p, hp, hp1, hp2⟩ := lexNumber_fields ls lpos lstart 1 lsemi ltoks llogs
          hsemi (by omega) hlt (by simpa using h4)
        rw [hp]
        exact ih (lemit ⟨ls, p, lstart, 1, lsemi, ltoks, llogs⟩ .itemNumber) hsemi
          (by dsimp only [lemit]; omega) (by dsimp only [lemit]; omega)
      rw [if_neg h4]
      by_cases h5 : isLiteralStart (ls.get ⟨lpos, hlt⟩) = true
      · rw [if_pos h5, hback]
        rcases lexLiteral_fields ls lpos lstart 1 lsemi ltoks llogs hsemi hlt h2 with
          hhalt | ⟨p, st, w, sm, tk, lg, heq, hq1, hq2⟩
        · rw [if_pos hhalt]
          exact ⟨_, rfl⟩
        · rw [heq]
          dsimp only
          rw [if_neg (by simp)]
          exact ih ⟨ls, p, st, w, sm, tk, lg⟩ hsemi (by dsimp only; omega)
            (by dsimp only; omega)
      rw [if_neg h5]
      by_cases h6 : isIdentifierStart (ls.get ⟨lpos, hlt⟩) = true
      · rw [if_pos h6, hback]
        have hop : isOperator (ls.get ⟨lpos, hlt⟩) = false := by
          by_contra hcon
          have hco : isOperator (ls.get ⟨lpos, hlt⟩) = true := by
            cases hx : isOperator (ls.get ⟨lpos, hlt⟩)
            · exact absurd hx hcon
            · rfl
          unfold isIdentifierStart at h6
          rw [hco] at h6
          simp at h6
        have hsp : isSpace (ls.get ⟨lpos, hlt⟩) = false := by
          simpa using h3
        have han : isAlphaNumeric (ls.get ⟨lpos, hlt⟩) = true := by
          unfold isAlphaNumeric
          rw [hsp, hop, decide_eq_false h2, decide_eq_false h0]
          rfl
        obtain ⟨p, hp, hp1, hp2⟩ := lexIdentifier_fields ls lpos lstart 1 lsemi ltoks llogs
          hsemi (by omega) hlt han
        rw [hp]
        exact ih (lemit ⟨ls, p, lstart, 1, lsemi, ltoks, llogs⟩ .itemIdentifier) hsemi
          (by dsimp only [lemit]; omega) (by dsimp only [lemit]; omega)
      rw [if_neg h6]
      by_cases h7 : isOperator (ls.get ⟨lpos, hlt⟩) = true
      · rw [if_pos h7, hback]
        obtain ⟨st, w, sm, tk, heq⟩ := lexOperator_fields ls lpos lstart 1 lsemi ltoks llogs
          hsemi hlt h2
        rw [heq]
        exact ih ⟨ls, lpos + 1, st, w, sm, tk, llogs⟩ hsemi (by dsimp only; omega)
          (by dsimp only; omega)
      rw [if_neg h7]
      exact ⟨_, rfl⟩

theorem normalizeEqn_lastSemi (eqn : List Char) :
    (normalizeEqn eqn).getLast? = some ';' := by
  unfold normalizeEqn
  by_cases h : eqn.getLast? = some ';'
  · rw [if_neg (by simpa using h)]
    exact h
  · rw [if_pos (by simpa using h)]
    simp

theorem lexAll_some (s : List Char) (hsemi : s.getLast? = some ';') :
    ∃ lf, lexAll s = some lf := by
  exact lexRun_total (s.length + 2) (initLexer s) hsemi (by simp [initLexer])
    (by simp only [initLexer]; omega)

theorem lexAll_lastEOF (s : List Char) (lf : LexState) (h : lexAll s = some lf) :
    lastIsEOF lf.toks :=
  lexRun_lastEOF _ _ _ h

theorem lastIsEOF_ne_nil {toks : List Token} (h : lastIsEOF toks) : toks ≠ [] := by
  intro he
  rw [he] at h
  simp [lastIsEOF] at h

theorem lastIsEOF_tail {toks : List Token} {t : Token}
    (hEOF : lastIsEOF toks) (hpk : toks.head? = some t) (hk : t.kind ≠ ItemType.itemEOF) :
    lastIsEOF toks.tail := by
  cases toks with
  | nil => simp at hpk
  | cons a rest =>
    simp at hpk
    subst hpk
    cases rest with
    | nil =>
      simp [lastIsEOF] at hEOF
      exact absurd hEOF hk
    | cons b rs =>
      simpa [lastIsEOF, List.getLast?_cons_cons] using hEOF

theorem peekT_some {st : PState} (h : lastIsEOF st.toks) : ∃ t, peekT st = some t := by
  rcases hl : st.toks with _ | ⟨a, rest⟩
  · exact absurd hl (lastIsEOF_ne_nil h)
  · exact ⟨a, by simp [peekT, hl]⟩

theorem consumeAnyOf_cases (st : PState) (ops : List Char) :
    consumeAnyOf st ops = (none, st) ∨
    ∃ t, consumeAnyOf st ops = (some t, { st with toks := st.toks.tail }) ∧
      peekT st = some t ∧ t.kind = ItemType.itemOperator := by
  unfold consumeAnyOf
  cases hpk : peekT st with
  | none => left; rfl
  | some la =>
    dsimp only
    by_cases hk : la.kind = ItemType.itemOperator
    · rw [if_pos hk]
      cases hh : la.val.head? with
      | none => left; rfl
      | some op =>
        dsimp only
        by_cases hc : (decide (op ≠ Char.ofNat 65533) && ops.contains op) = true
        · rw [if_pos hc]
          right
          exact ⟨la, rfl, rfl, hk⟩
        · rw [if_neg hc]
          left
          rfl
    · rw [if_neg hk]
      left
      rfl

theorem consumeTok_cases (st : PState) (ty : ItemType) :
    consumeTok st ty = (none, st) ∨
    ∃ t, consumeTok st ty = (some t, { st with toks := st.toks.tail }) ∧
      peekT st = some t ∧ t.kind = ty := by
  unfold consumeTok
  cases hpk : peekT st with
  | none => left; rfl
  | some la =>
    dsimp only
    by_cases hk : la.kind = ty
    · rw [if_pos hk]
      right
      exact ⟨la, rfl, rfl, hk⟩
    · rw [if_neg hk]
      left
      rfl

theorem goodArgs_append (l : List Expr) (e : Expr) :
    goodArgs (l ++ [e]) = (goodArgs l && goodExpr e) := by
  induction l with
  | nil => simp [goodArgs]
  | cons a rest ih => simp [goodArgs, ih, Bool.and_assoc]

theorem tail_len {α : Type} (l : List α) : l.tail.length ≤ l.length := by
  cases l <;> simp

theorem pRun_toks_le : ∀ (fuel : Nat) (c : PCall) (st : PState),
    (pRun fuel c st).2.2.toks.length ≤ st.toks.length := by
  intro fuel
  induction fuel with
  | zero => intro c st; simp [pRun]
  | succ fuel ih =>
    intro c st
    cases c with
    | level n =>
      simp only [pRun]
      by_cases hn : n ≥ 3
      · rw [if_pos hn]
        exact ih .factor st
      · rw [if_neg hn]
        by_cases hpk : (peekT st).isNone = true
        · rw [if_pos hpk]
        · rw [if_neg hpk]
          rcases hrec : pRun fuel (.level (n + 1)) st with ⟨x, ok, st₁⟩
          have h1 := ih (.level (n + 1)) st
          rw [hrec] at h1
          cases ok
          · exact h1
          · exact Nat.le_trans (ih (.bin n x) st₁) h1
    | bin n lhs =>
      simp only [pRun]
      rcases consumeAnyOf_cases st (opsForLevel n) with hnone | ⟨t, hsome, hpk, hk⟩
      · rw [hnone]
      · rw [hsome]
        try dsimp only
        rcases hrec : pRun fuel (.level (n + 1)) { st with toks := st.toks.tail } with ⟨x, ok, st₂⟩
        have h1 := ih (.level (n + 1)) { st with toks := st.toks.tail }
        rw [hrec] at h1
        dsimp only at h1
        have htail := tail_len st.toks
        cases ok
        · exact Nat.le_trans h1 htail
        · exact Nat.le_trans (Nat.le_trans (ih (.bin n _) st₂) h1) htail
    | factor =>
      simp only [pRun]
      rcases consumeTok_cases st .itemLParen with hnone | ⟨lp, hsome, hpk, hk⟩
      · rw [hnone]
        try dsimp only
        cases hpk1 : peekT st with
        | none => exact Nat.le_refl _
        | some la =>
          try dsimp only
          by_cases hnum : la.kind = ItemType.itemNumber
          · rw [if_pos hnum]
            exact tail_len _
          · rw [if_neg hnum]
            by_cases hid : la.kind = ItemType.itemIdentifier
            · rw [if_pos hid]
              try dsimp only
              rcases consumeTok_cases { st with toks := st.toks.tail } .itemLParen with
                hn2 | ⟨lp2, hs2, hpk2, hk2⟩
              · rw [hn2]
                exact tail_len _
              · rw [hs2]
                refine Nat.le_trans (ih (.call _ _) _) ?_
                exact Nat.le_trans (tail_len _) (tail_len _)
            · rw [if_neg hid]
              exact Nat.le_refl _
      · rw [hsome]
        try dsimp only
        rcases hrec : pRun fuel (.level 0) { st with toks := st.toks.tail } with ⟨x, ok, st₂⟩
        have h1 := ih (.level 0) { st with toks := st.toks.tail }
        rw [hrec] at h1
        dsimp only at h1
        have htail := tail_len st.toks
        cases ok
        · exact Nat.le_trans h1 htail
        · try dsimp only
          rcases consumeTok_cases st₂ .itemRParen with hn2 | ⟨rp, hs2, hpk2, hk2⟩
          · rw [hn2]
            exact Nat.le_trans h1 htail
          · rw [hs2]
            exact Nat.le_trans (tail_len _) (Nat.le_trans h1 htail)
    | call f lp =>
      simp only [pRun]
      rcases consumeTok_cases st .itemRParen with hnone | ⟨rp, hsome, hpk, hk⟩
      · rw [hnone]
        exact ih (.callLoop f lp []) st
      · rw [hsome]
        exact tail_len _
    | callLoop f lp args =>
      simp only [pRun]
      rcases hrec : pRun fuel (.level 0) st with ⟨x, ok, st₁⟩
      have h1 := ih (.level 0) st
      rw [hrec] at h1
      cases ok
      · exact h1
      · try dsimp only
        rcases consumeAnyOf_cases st₁ [','] with hn2 | ⟨t2, hs2, hpk2, hk2⟩
        · rw [hn2]
          try dsimp only
          rcases consumeTok_cases st₁ .itemRParen with hn3 | ⟨rp, hs3, hpk3, hk3⟩
          · rw [hn3]
            exact h1
          · rw [hs3]
            exact Nat.le_trans (tail_len _) h1
        · rw [hs2]
          exact Nat.le_trans (Nat.le_trans (ih (.callLoop f lp _) _) (tail_len _)) h1

theorem perrorf_errs (st : PState) (tok : Option Token) (msg : ErrMsg) :
    (perrorf st tok msg).errs =
      st.errs ++ [{ pos := (tok.map Token.pos).getD 0, msg := msg }] := rfl

theorem perrorf_toks (st : PState) (tok : Option Token) (msg : ErrMsg) :
    (perrorf st tok msg).toks = st.toks := rfl

theorem pRun_master : ∀ (fuel : Nat) (c : PCall) (st : PState),
    pMeasure c st < fuel → lastIsEOF st.toks → POk c →
    (∃ Δ, (pRun fuel c st).2.2.errs = st.errs ++ Δ) ∧
    ((pRun fuel c st).2.1 = true →
      (pRun fuel c st).2.2.errs = st.errs ∧
      ∃ e, (pRun fuel c st).1 = some e ∧ goodExpr e = true) ∧
    ((pRun fuel c st).2.1 = false → st.errs.length < (pRun fuel c st).2.2.errs.length) ∧
    lastIsEOF (pRun fuel c st).2.2.toks := by
  intro fuel
  induction fuel with
  | zero =>
    intro c st hmu _ _
    exact absurd hmu (Nat.not_lt_zero _)
  | succ fuel ih =>
    intro c st hmu hEOF hok
    simp only [pMeasure, pRank] at hmu
    have hL : 0 < st.toks.length := List.length_pos.mpr (lastIsEOF_ne_nil hEOF)
    have htl : st.toks.tail.length = st.toks.length - 1 := by simp [List.length_tail]
    cases c with
    | level n =>
      dsimp only at hmu
      have hn3 : n ≤ 3 := hok
      simp only [pRun]
      by_cases hn : n ≥ 3
      · rw [if_pos hn]
        exact ih .factor st (by simp only [pMeasure, pRank]; omega) hEOF trivial
      · rw [if_neg hn]
        rw [if_neg (by obtain ⟨t, ht⟩ := peekT_some hEOF; simp [ht])]
        rcases hrec : pRun fuel (.level (n + 1)) st with ⟨x, ok, st₁⟩
        have hlen1 : st₁.toks.length ≤ st.toks.length := by
          have h2 := pRun_toks_le fuel (.level (n + 1)) st
          rw [hrec] at h2
          exact h2
        have IH1 := ih (.level (n + 1)) st (by simp only [pMeasure, pRank]; omega) hEOF
          (show n + 1 ≤ 3 by omega)
        rw [hrec] at IH1
        obtain ⟨IH1a, IH1b, IH1c, IH1d⟩ := IH1
        have IH1d2 : lastIsEOF st₁.toks := IH1d
        cases ok
        · try dsimp only
          refine ⟨?_, fun h => by simp at h, fun _ => IH1c rfl, IH1d2⟩
          obtain ⟨Δ, hΔ⟩ := IH1a
          exact ⟨Δ, hΔ⟩
        · try dsimp only
          obtain ⟨he1, e1, hx1, hgood1⟩ := IH1b rfl
          have he1b : st₁.errs = st.errs := he1
          have hmu2 : 12 * st₁.toks.length + 0 < fuel := by omega
          have IH2 := ih (.bin n x) st₁ hmu2 IH1d2 ⟨by omega, e1, hx1, hgood1⟩
          obtain ⟨IH2a, IH2b, IH2c, IH2d⟩ := IH2
          refine ⟨?_, ?_, ?_, IH2d⟩
          · obtain ⟨Δ, hΔ⟩ := IH2a
            refine ⟨Δ, ?_⟩
            rw [hΔ, he1b]
          · intro hk2
            obtain ⟨he2, hx2⟩ := IH2b hk2
            exact ⟨by rw [he2, he1b], hx2⟩
          · intro hk2
            have h3 := IH2c hk2
            rw [he1b] at h3
            exact h3
    | bin n lhs =>
      dsimp only at hmu
      obtain ⟨hn2, e0, hlhs, hgood0⟩ := hok
      simp only [pRun]
      rcases consumeAnyOf_cases st (opsForLevel n) with hnone | ⟨t, hsome, hpk, hk⟩
      · rw [hnone]
        try dsimp only
        exact ⟨⟨[], by simp⟩, fun _ => ⟨rfl, e0, hlhs, hgood0⟩, fun h => by simp at h, hEOF⟩
      · rw [hsome]
        try dsimp only
        have hEOF1 : lastIsEOF st.toks.tail := lastIsEOF_tail hEOF hpk (by rw [hk]; decide)
        rcases hrec : pRun fuel (.level (n + 1)) { st with toks := st.toks.tail } with ⟨x, ok, st₂⟩
        have hlen1 : st₂.toks.length ≤ st.toks.tail.length := by
          have h2 := pRun_toks_le fuel (.level (n + 1)) { st with toks := st.toks.tail }
          rw [hrec] at h2
          exact h2
        have hmu1 : 12 * st.toks.tail.length + (9 - (n + 1)) < fuel := by omega
        have IH1 := ih (.level (n + 1)) { st with toks := st.toks.tail } hmu1 hEOF1
          (show n + 1 ≤ 3 by omega)
        rw [hrec] at IH1
        obtain ⟨IH1a, IH1b, IH1c, IH1d⟩ := IH1
        have IH1d2 : lastIsEOF st₂.toks := IH1d
        cases ok
        · try dsimp only
          refine ⟨?_, fun h => by simp at h, fun _ => IH1c rfl, IH1d2⟩
          obtain ⟨Δ, hΔ⟩ := IH1a
          exact ⟨Δ, hΔ⟩
        · try dsimp only
          obtain ⟨he1, e1, hx1, hgood1⟩ := IH1b rfl
          have he1b : st₂.errs = st.errs := he1
          have hgoodB :
              goodExpr (.BinaryExpr (lhs.getD nilExpr) t.pos (opToken t) (x.getD nilExpr)) = true := by
            have hh1 : lhs.getD nilExpr = e0 := by rw [hlhs]; rfl
            have hh2 : x.getD nilExpr = e1 := by rw [show x = some e1 from hx1]; rfl
            simp [goodExpr, hh1, hh2, hgood0, hgood1]
          have hmu2 : 12 * st₂.toks.length + 0 < fuel := by omega
          have IH2 := ih
            (.bin n (some (.BinaryExpr (lhs.getD nilExpr) t.pos (opToken t) (x.getD nilExpr))))
            st₂ hmu2 IH1d2 ⟨hn2, _, rfl, hgoodB⟩
          obtain ⟨IH2a, IH2b, IH2c, IH2d⟩ := IH2
          refine ⟨?_, ?_, ?_, IH2d⟩
          · obtain ⟨Δ, hΔ⟩ := IH2a
            refine ⟨Δ, ?_⟩
            rw [hΔ, he1b]
          · intro hk2
            obtain ⟨he2, hx2⟩ := IH2b hk2
            exact ⟨by rw [he2, he1b], hx2⟩
          · intro hk2
            have h3 := IH2c hk2
            rw [he1b] at h3
            exact h3
    | factor =>
      dsimp only at hmu
      simp only [pRun]
      rcases consumeTok_cases st .itemLParen with hnone | ⟨lp, hsome, hpk, hk⟩
      · rw [hnone]
        try dsimp only
        cases hpk1 : peekT st with
        | none =>
          try dsimp only
          exact ⟨⟨_, rfl⟩, fun h => by simp at h, fun _ => by simp [perrorf], hEOF⟩
        | some la =>
          try dsimp only
          by_cases hnum : la.kind = ItemType.itemNumber
          · rw [if_pos hnum]
            try dsimp only
            refine ⟨⟨[], by simp⟩, fun _ => ⟨rfl, _, rfl, by simp [goodExpr]⟩,
              fun h => by simp at h, ?_⟩
            exact lastIsEOF_tail hEOF hpk1 (by rw [hnum]; decide)
          · rw [if_neg hnum]
            by_cases hid : la.kind = ItemType.itemIdentifier
            · rw [if_pos hid]
              try dsimp only
              have hEOF1 : lastIsEOF st.toks.tail := lastIsEOF_tail hEOF hpk1 (by rw [hid]; decide)
              rcases consumeTok_cases { st with toks := st.toks.tail } .itemLParen with
                hn2 | ⟨lp2, hs2, hpk2, hk2⟩
              · rw [hn2]
                try dsimp only
                exact ⟨⟨[], by simp⟩, fun _ => ⟨rfl, _, rfl, by simp [goodExpr]⟩,
                  fun h => by simp at h, hEOF1⟩
              · rw [hs2]
                try dsimp only
                have hpk2b : st.toks.tail.head? = some lp2 := hpk2
                have hEOF2 : lastIsEOF st.toks.tail.tail :=
                  lastIsEOF_tail hEOF1 hpk2b (by rw [hk2]; decide)
                have hL2 : 0 < st.toks.tail.length := List.length_pos.mpr (lastIsEOF_ne_nil hEOF1)
                have htl2 : st.toks.tail.tail.length = st.toks.tail.length - 1 := by
                  simp [List.length_tail]
                have hmu2 : 12 * st.toks.tail.tail.length + 11 < fuel := by omega
                exact ih (.call (.Ident la.pos la.val) lp2) ⟨st.toks.tail.tail, st.errs⟩
                  hmu2 hEOF2 (show goodExpr (.Ident la.pos la.val) = true from rfl)
            · rw [if_neg hid]
              try dsimp only
              exact ⟨⟨_, rfl⟩, fun h => by simp at h, fun _ => by simp [perrorf], hEOF⟩
      · rw [hsome]
        try dsimp only
        have hEOF1 : lastIsEOF st.toks.tail := lastIsEOF_tail hEOF hpk (by rw [hk]; decide)
        rcases hrec : pRun fuel (.level 0) { st with toks := st.toks.tail } with ⟨x, ok, st₂⟩
        have hlen1 : st₂.toks.length ≤ st.toks.tail.length := by
          have h2 := pRun_toks_le fuel (.level 0) { st with toks := st.toks.tail }
          rw [hrec] at h2
          exact h2
        have hmu1 : 12 * st.toks.tail.length + (9 - 0) < fuel := by omega
        have IH1 := ih (.level 0) { st with toks := st.toks.tail } hmu1 hEOF1 (Nat.zero_le 3)
        rw [hrec] at IH1
        obtain ⟨IH1a, IH1b, IH1c, IH1d⟩ := IH1
        have IH1d2 : lastIsEOF st₂.toks := IH1d
        cases ok
        · try dsimp only
          refine ⟨?_, fun h => by simp at h, fun _ => IH1c rfl, IH1d2⟩
          obtain ⟨Δ, hΔ⟩ := IH1a
          exact ⟨Δ, hΔ⟩
        · try dsimp only
          obtain ⟨he1, e1, hx1, hgood1⟩ := IH1b rfl
          have he1b : st₂.errs = st.errs := he1
          rcases consumeTok_cases st₂ .itemRParen with hn2 | ⟨rp, hs2, hpk2, hk2⟩
          · rw [hn2]
            try dsimp only
            refine ⟨⟨_, by rw [perrorf_errs, he1b]⟩, fun h => by simp at h, fun _ => ?_, ?_⟩
            · rw [perrorf_errs, he1b]
              simp
            · exact IH1d2
          · rw [hs2]
            try dsimp only
            have hgoodP : goodExpr (.ParenExpr lp.pos (x.getD nilExpr) rp.pos) = true := by
              have hh : x.getD nilExpr = e1 := by rw [show x = some e1 from hx1]; rfl
              simp [goodExpr, hh, hgood1]
            refine ⟨⟨[], by simpa using he1b⟩, fun _ => ⟨he1b, _, rfl, hgoodP⟩,
              fun h => by simp at h, ?_⟩
            exact lastIsEOF_tail IH1d2 hpk2 (by rw [hk2]; decide)
    | call f lp =>
      dsimp only at hmu
      have hokf : goodExpr f = true := hok
      simp only [pRun]
      rcases consumeTok_cases st .itemRParen with hnone | ⟨rp, hsome, hpk, hk⟩
      · rw [hnone]
        try dsimp only
        exact ih (.callLoop f lp []) st (by simp only [pMeasure, pRank]; omega) hEOF
          ⟨hokf, by simp [goodArgs]⟩
      · rw [hsome]
        try dsimp only
        refine ⟨⟨[], by simp⟩, fun _ => ⟨rfl, _, rfl, by simp [goodExpr, goodArgs, hokf]⟩,
          fun h => by simp at h, ?_⟩
        exact lastIsEOF_tail hEOF hpk (by rw [hk]; decide)
    | callLoop f lp args =>
      dsimp only at hmu
      obtain ⟨hokf, hoka⟩ := hok
      simp only [pRun]
      rcases hrec : pRun fuel (.level 0) st with ⟨x, ok, st₁⟩
      have hlen1 : st₁.toks.length ≤ st.toks.length := by
        have h2 := pRun_toks_le fuel (.level 0) st
        rw [hrec] at h2
        exact h2
      have hmu1 : 12 * st.toks.length + (9 - 0) < fuel := by omega
      have IH1 := ih (.level 0) st hmu1 hEOF (Nat.zero_le 3)
      rw [hrec] at IH1
      obtain ⟨IH1a, IH1b, IH1c, IH1d⟩ := IH1
      have IH1d2 : lastIsEOF st₁.toks := IH1d
      cases ok
      · try dsimp only
        obtain ⟨Δ, hΔ⟩ := IH1a
        have hΔb : st₁.errs = st.errs ++ Δ := hΔ
        have hlt1 : st.errs.length < st₁.errs.length := IH1c rfl
        refine ⟨⟨Δ ++ [⟨(Option.map Token.pos (peekT st₁)).getD 0,
            ErrMsg.callExpectedExprArg (peekT st₁)⟩],
            by rw [perrorf_errs, hΔb]; simp⟩, fun h => by simp at h,
          fun _ => ?_, IH1d2⟩
        rw [perrorf_errs]
        simp only [List.length_append]
        omega
      · try dsimp only
        obtain ⟨he1, e1, hx1, hgood1⟩ := IH1b rfl
        have he1b : st₁.errs = st.errs := he1
        have hgarg : goodArgs (args ++ [x.getD nilExpr]) = true := by
          rw [goodArgs_append]
          have hh : x.getD nilExpr = e1 := by rw [show x = some e1 from hx1]; rfl
          simp [hoka, hh, hgood1]
        rcases consumeAnyOf_cases st₁ [','] with hn2 | ⟨t2, hs2, hpk2, hk2⟩
        · rw [hn2]
          try dsimp only
          rcases consumeTok_cases st₁ .itemRParen with hn3 | ⟨rp, hs3, hpk3, hk3⟩
          · rw [hn3]
            try dsimp only
            refine ⟨⟨_, by rw [perrorf_errs, he1b]⟩, fun h => by simp at h, fun _ => ?_, IH1d2⟩
            rw [perrorf_errs, he1b]
            simp
          · rw [hs3]
            try dsimp only
            refine ⟨⟨[], by simpa using he1b⟩,
              fun _ => ⟨he1b, _, rfl, by simp [goodExpr, hokf, hgarg]⟩,
              fun h => by simp at h, ?_⟩
            exact lastIsEOF_tail IH1d2 hpk3 (by rw [hk3]; decide)
        · rw [hs2]
          try dsimp only
          have hEOF2 : lastIsEOF st₁.toks.tail := lastIsEOF_tail IH1d2 hpk2 (by rw [hk2]; decide)
          have hL1 : 0 < st₁.toks.length := List.length_pos.mpr (lastIsEOF_ne_nil IH1d2)
          have htl1 : st₁.toks.tail.length = st₁.toks.length - 1 := by simp [List.length_tail]
          have hmu2 : 12 * st₁.toks.tail.length + 10 < fuel := by omega
          have IH2 := ih (.callLoop f lp (args ++ [x.getD nilExpr]))
            ⟨st₁.toks.tail, st₁.errs⟩ hmu2 hEOF2 ⟨hokf, hgarg⟩
          obtain ⟨IH2a, IH2b, IH2c, IH2d⟩ := IH2
          refine ⟨?_, ?_, ?_, IH2d⟩
          · obtain ⟨Δ, hΔ⟩ := IH2a
            have hΔb := hΔ
            refine ⟨Δ, ?_⟩
            rw [show (pRun fuel (.callLoop f lp (args ++ [x.getD nilExpr]))
                ⟨st₁.toks.tail, st₁.errs⟩).2.2.errs = st₁.errs ++ Δ from hΔb, he1b]
          · intro hk3
            obtain ⟨he2, hx2⟩ := IH2b hk3
            exact ⟨by rw [show (pRun fuel (.callLoop f lp (args ++ [x.getD nilExpr]))
                ⟨st₁.toks.tail, st₁.errs⟩).2.2.errs = st₁.errs from he2, he1b], hx2⟩
          · intro hk3
            have h3 := IH2c hk3
            have h3b : st₁.errs.length <
                (pRun fuel (.callLoop f lp (args ++ [x.getD nilExpr]))
                  ⟨st₁.toks.tail, st₁.errs⟩).2.2.errs.length := h3
            exact Nat.lt_of_le_of_lt (Nat.le_of_eq (by rw [he1b])) h3b


theorem dedupByPosAux_sublist : ∀ (l : List Diag) (seen : List Nat),
    List.Sublist (dedupByPosAux seen l) l := by
  intro l
  induction l with
  | nil =>
    intro seen
    simp [dedupByPosAux]
  | cons d rest ih =>
    intro seen
    unfold dedupByPosAux
    by_cases h : seen.contains d.pos
    · rw [if_pos h]
      exact List.Sublist.cons d (ih seen)
    · rw [if_neg h]
      exact List.Sublist.cons₂ d (ih (d.pos :: seen))

theorem GetErrorList_sorted (errs : List Diag) : sortedByPos (GetErrorList errs) := by
  have hs : List.Sorted (fun a b : Diag => a.pos ≤ b.pos)
      (List.insertionSort (fun a b : Diag => a.pos ≤ b.pos) errs) :=
    List.sorted_insertionSort (fun a b : Diag => a.pos ≤ b.pos) errs
  exact List.Pairwise.sublist (dedupByPosAux_sublist _ []) hs

theorem GetErrorList_ne_nil (errs : List Diag) (h : errs ≠ []) : GetErrorList errs ≠ [] := by
  unfold GetErrorList dedupByPos
  have hlen : (List.insertionSort (fun a b : Diag => a.pos ≤ b.pos) errs).length =
      errs.length :=
    List.length_insertionSort _ _
  rcases hl : List.insertionSort (fun a b : Diag => a.pos ≤ b.pos) errs with _ | ⟨d, rest⟩
  · rw [hl] at hlen
    have h0 : errs.length = 0 := by simpa using hlen.symm
    exact absurd (List.length_eq_zero.mp h0) h
  · simp [dedupByPosAux]

theorem parserParse_spec (st : PState) (hEOF : lastIsEOF st.toks) :
    ∃ x ok st₁, parserParse st = some (x, ok, st₁) ∧
      (ok = true → st₁.errs = st.errs ∧ ∃ e, x = some e ∧ goodExpr e = true) ∧
      (ok = false → st.errs.length < st₁.errs.length) := by
  have hM := pRun_master (parserFuel st.toks) (.level 0) st
    (by simp only [pMeasure, pRank, parserFuel]; omega) hEOF (by simp [POk])
  rcases hrec : pRun (parserFuel st.toks) (.level 0) st with ⟨x, ok, st₂⟩
  rw [hrec] at hM
  obtain ⟨hMa, hMb, hMc, hMd⟩ := hM
  unfold parserParse
  rw [hrec]
  cases ok
  · exact ⟨x, false, st₂, rfl, fun h => by simp at h, fun _ => hMc rfl⟩
  · try dsimp only
    obtain ⟨he, e, hx, hg⟩ := hMb rfl
    have he2 : st₂.errs = st.errs := he
    have hx2 : x = some e := hx
    have hMd2 : lastIsEOF st₂.toks := hMd
    obtain ⟨la, hla⟩ := peekT_some hMd2
    rw [hla]
    try dsimp only
    by_cases hk : la.kind = ItemType.itemSemi
    · rw [if_neg (by simp [hk])]
      exact ⟨x, true, { st₂ with toks := st₂.toks.tail }, rfl,
        fun _ => ⟨he2, e, hx2, hg⟩, fun h => by simp at h⟩
    · rw [if_pos hk]
      refine ⟨none, false, perrorf st₂ (some la) (.expectedEndOfEquation la), rfl,
        fun h => by simp at h, fun _ => ?_⟩
      rw [perrorf_errs, he2]
      simp

theorem ParseL_dichotomy (name eqn : List Char) :
    (∃ e, ParseL name eqn = some (.ok (some e)) ∧ goodExpr e = true) ∨
    (∃ ds, ParseL name eqn = some (.error (.diags ds)) ∧ ds ≠ [] ∧ sortedByPos ds) := by
  obtain ⟨lf, hlf⟩ := lexAll_some (normalizeEqn eqn) (normalizeEqn_lastSemi eqn)
  have hEOF : lastIsEOF lf.toks := lexAll_lastEOF _ _ hlf
  have hEOF2 : lastIsEOF (PState.mk lf.toks []).toks := hEOF
  obtain ⟨x, ok, st₁, hpp, hT, hF⟩ := parserParse_spec ⟨lf.toks, []⟩ hEOF2
  unfold ParseL
  try dsimp only
  rw [hlf]
  try dsimp only
  rw [hpp]
  try dsimp only
  cases ok
  · have hlt : (0 : Nat) < st₁.errs.length := hF rfl
    have hne : st₁.errs ≠ [] := by
      intro hnil
      rw [hnil] at hlt
      simp at hlt
    rw [if_pos (by omega)]
    right
    exact ⟨GetErrorList st₁.errs, rfl, GetErrorList_ne_nil _ hne, GetErrorList_sorted _⟩
  · obtain ⟨he, e, hx, hg⟩ := hT rfl
    have he2 : st₁.errs = [] := he
    rw [if_neg (by rw [he2]; simp)]
    left
    exact ⟨e, by rw [hx]; simp, hg⟩

/-- C2: for every (name, equation) pair, `Parse` returns exactly one of a
root expression with no error, or a non-empty diagnostic list ordered by
source position — never both, never neither — and the unclosed-paren
input "a+(b" yields the single expected-right-paren diagnostic and no
AST. -/
theorem C2_dichotomy :
    (∀ name eqn : String,
      (∃ e, Parse name eqn = some (.ok (some e)) ∧ goodExpr e = true) ∨
      (∃ ds, Parse name eqn = some (.error (.diags ds)) ∧ ds ≠ [] ∧ sortedByPos ds)) ∧
    Parse "x" "a+(b" = some (.error (.diags [⟨6, .expectedRParen⟩])) := by
  exact ⟨fun name eqn => ParseL_dichotomy name.data eqn.data, by rfl⟩

/-- C9: every token the lexer emits stores as its position the file offset
taken after the token runes, `fileBase + start + length of the text`; on
"ab+cde" the identifier "ab" (characters at offsets 0 and 1) therefore has
Pos() = 3 rather than `fileBase + 0 = 1`, and End() = Pos() + 2 = 5 points
one token length past the character following the node. -/
theorem C9_token_positions :
    (∀ (l : LexState) (ty : ItemType), l.start ≤ l.pos → l.pos ≤ l.s.length →
      ∃ t, (lemit l ty).toks = l.toks ++ [t] ∧
        t.val = extractList l.s l.start l.pos ∧
        t.pos = fileBase + l.start + t.val.length) ∧
    Parse "x" "ab+cde" = some (.ok (some (.BinaryExpr (.Ident 3 ['a', 'b']) 4 .ADD
      (.Ident 7 ['c', 'd', 'e'])))) ∧
    Expr.Pos (.Ident 3 ['a', 'b']) = 3 ∧ (3 : Nat) ≠ fileBase + 0 ∧
    Expr.End (.Ident 3 ['a', 'b']) = 3 + 2 := by
  refine ⟨fun l ty h1 h2 => ?_, by rfl, by rfl, by decide, by rfl⟩
  refine ⟨_, rfl, rfl, ?_⟩
  show fileBase + l.pos = fileBase + l.start + (extractList l.s l.start l.pos).length
  have hlen : (extractList l.s l.start l.pos).length = l.pos - l.start := by
    unfold extractList
    rw [List.length_drop, List.length_take, Nat.min_eq_left h2]
  rw [hlen]
  omega

theorem C9_token_positions_witness :
    ∃ t, (lemit ⟨['a', 'b'], 2, 0, 1, false, [], []⟩ .itemIdentifier).toks = [] ++ [t] ∧
      t.val = extractList ['a', 'b'] 0 2 ∧ t.pos = fileBase + 0 + t.val.length :=
  C9_token_positions.1 ⟨['a', 'b'], 2, 0, 1, false, [], []⟩ .itemIdentifier
    (by decide) (by decide)

/-- C10: no successful Parse result contains a `UnaryExpr`, `IndexExpr` or
`BadExpr` node (every returned expression satisfies `goodExpr`, which
excludes those kinds), and the unary-minus inputs "-5" and "-x" each
produce an unexpected-token diagnostic instead of an AST. -/
theorem C10_no_unary :
    (∀ (name eqn : String) (e : Expr),
      Parse name eqn = some (.ok (some e)) → goodExpr e = true) ∧
    Parse "x" "-5" = some (.error (.diags [⟨2, .unexpectedToken⟩])) ∧
    Parse "x" "-x" = some (.error (.diags [⟨2, .unexpectedToken⟩])) := by
  refine ⟨fun name eqn e hpe => ?_, by rfl, by rfl⟩
  rcases ParseL_dichotomy name.data eqn.data with ⟨e1, he1, hg⟩ | ⟨ds, hds, _, _⟩
  · have hP : Parse name eqn = some (.ok (some e1)) := he1
    rw [hpe] at hP
    simp at hP
    rw [hP]
    exact hg
  · have hP : Parse name eqn = some (.error (.diags ds)) := hds
    rw [hpe] at hP
    simp at hP

theorem C10_no_unary_witness : goodExpr (.Ident 2 ['a']) = true :=
  C10_no_unary.1 "x" "a" (.Ident 2 ['a']) (by rfl)

end GoXmile
